import Mathlib

/-!
Verification of the document-structure helpers of the emmet extension
(`src/extensions/emmet/src/util.ts`): the node locator `getNode`, the
sibling-range collector `getNodesInBetween`, the partial stylesheet
extractor `parsePartialStylesheet`, the template-aware node resolution
(`getHtmlNode` and `getHtmlNodeLS`/`getHtmlNodeLSInternal`), and the
error-handling around the external markup/stylesheet parsers.

Editor positions are pairs (line, character) compared lexicographically,
as in the editor API.  Documents are lists of lines of characters; the
character stream over a document is represented by an absolute offset
into the text obtained by joining the lines with a newline character.
External collaborators (the grammar parsers, the incremental language
service, the buffer stream) are modelled as parameters or, where their
behaviour decides a claim, from the spec (marked in doc comments).
-/

set_option maxHeartbeats 1000000

/-- An editor position: line and character, compared lexicographically. -/
structure Pos where
  line : Nat
  character : Nat
deriving DecidableEq, Repr, Inhabited

/-- `a.isBefore b`: strict lexicographic order on positions. -/
def Pos.isBefore (a b : Pos) : Bool :=
  if a.line < b.line then true
  else if b.line < a.line then false
  else decide (a.character < b.character)

/-- `a.isBeforeOrEqual b`: non-strict lexicographic order on positions. -/
def Pos.isBeforeOrEqual (a b : Pos) : Bool :=
  if a.line < b.line then true
  else if b.line < a.line then false
  else decide (a.character ≤ b.character)

def Pos.isAfter (a b : Pos) : Bool := b.isBefore a

def Pos.isAfterOrEqual (a b : Pos) : Bool := b.isBeforeOrEqual a

def Pos.isEqual (a b : Pos) : Bool := a.line == b.line && a.character == b.character

theorem Pos.isBefore_iff {a b : Pos} :
    a.isBefore b = true ↔ a.line < b.line ∨ (a.line = b.line ∧ a.character < b.character) := by
  unfold Pos.isBefore
  split_ifs with h1 h2 <;> simp <;> omega

theorem Pos.isBeforeOrEqual_iff {a b : Pos} :
    a.isBeforeOrEqual b = true ↔ a.line < b.line ∨ (a.line = b.line ∧ a.character ≤ b.character) := by
  unfold Pos.isBeforeOrEqual
  split_ifs with h1 h2 <;> simp <;> omega

theorem Pos.isEqual_iff {a b : Pos} : a.isEqual b = true ↔ a = b := by
  cases a; cases b
  simp [Pos.isEqual, Pos.mk.injEq]

/-- Transitivity-style facts are obtained by rewriting with the `_iff`
lemmas and closing with `omega`; this helper packages the common case. -/
theorem Pos.isBefore_trans {a b c : Pos} (h1 : a.isBefore b = true)
    (h2 : b.isBefore c = true) : a.isBefore c = true := by
  rw [Pos.isBefore_iff] at *
  omega

theorem Pos.isBeforeOrEqual_antisymm {a b : Pos} (h1 : a.isBeforeOrEqual b = true)
    (h2 : b.isBeforeOrEqual a = true) : a = b := by
  rcases a with ⟨al, ac⟩
  rcases b with ⟨bl, bc⟩
  rw [Pos.isBeforeOrEqual_iff] at h1 h2
  dsimp only at h1 h2
  simp only [Pos.mk.injEq]
  omega

/-- A syntax-tree node of the emmet parsers (`EmmetNode`): span, node
type and tag name, the end of the opening delimiter, the start of the
closing delimiter when the node has one, the attribute list as
name/value pairs, and the list of children in document order.
`getNode` walks `firstChild`/`nextSibling`; over this representation
`firstChild` is the head of `children` and `nextSibling` is the next
list element. -/
inductive ENode where
  | mk (type_ : String) (name : String) (start stop : Pos) (openEnd : Pos)
      (closeStart : Option Pos) (attributes : List (String × String))
      (children : List ENode)

def ENode.type_ : ENode → String | .mk t _ _ _ _ _ _ _ => t
def ENode.name : ENode → String | .mk _ n _ _ _ _ _ _ => n
def ENode.start : ENode → Pos | .mk _ _ s _ _ _ _ _ => s
def ENode.stop : ENode → Pos | .mk _ _ _ e _ _ _ _ => e
def ENode.openEnd : ENode → Pos | .mk _ _ _ _ o _ _ _ => o
def ENode.closeStart : ENode → Option Pos | .mk _ _ _ _ _ c _ _ => c
def ENode.attributes : ENode → List (String × String) | .mk _ _ _ _ _ _ a _ => a
def ENode.children : ENode → List ENode | .mk _ _ _ _ _ _ _ c => c

theorem sizeOf_children_lt (n : ENode) (rest : List ENode) :
    sizeOf n.children < sizeOf (n :: rest) := by
  cases n with
  | mk t nm s e o c a ch =>
    simp only [ENode.children, List.cons.sizeOf_spec, ENode.mk.sizeOf_spec]
    omega

theorem sizeOf_rest_lt (n : ENode) (rest : List ENode) :
    sizeOf rest < sizeOf (n :: rest) := by
  simp only [List.cons.sizeOf_spec]
  omega

/-- The containment test of `getNode`: strictly between start and end,
or (when `includeNodeBoundary`) inclusively between them. -/
def nodeContains (n : ENode) (position : Pos) (includeNodeBoundary : Bool) : Bool :=
  (n.start.isBefore position && n.stop.isAfter position) ||
    (includeNodeBoundary &&
      (n.start.isBeforeOrEqual position && n.stop.isAfterOrEqual position))

/-- The traversal loop of `getNode`: starting from a sibling list, on a
containment match remember the node and descend into its children,
otherwise advance to the next sibling; `found` is the best match so far. -/
def getNodeList : List ENode → Pos → Bool → Option ENode → Option ENode
  | [], _, _, found => found
  | n :: rest, position, includeNodeBoundary, found =>
    if nodeContains n position includeNodeBoundary then
      getNodeList n.children position includeNodeBoundary (some n)
    else
      getNodeList rest position includeNodeBoundary found
termination_by l _ _ _ => sizeOf l
decreasing_by
  all_goals first
    | exact sizeOf_children_lt n _
    | exact sizeOf_rest_lt n rest

/-- `getNode(root, position, includeNodeBoundary)` from util.ts: `null`
for a missing root, otherwise the traversal starting at the root's first
child with no match recorded. -/
def getNode (root : Option ENode) (position : Pos) (includeNodeBoundary : Bool) :
    Option ENode :=
  match root with
  | none => none
  | some r => getNodeList r.children position includeNodeBoundary none

/-- Membership of a node in a forest at a given depth: depth 0 is the
top sibling list, and a node of depth `d` inside some top node's
children has depth `d + 1`. -/
inductive MemDepth : List ENode → ENode → Nat → Prop where
  | top {l : List ENode} {m : ENode} (h : m ∈ l) : MemDepth l m 0
  | child {l : List ENode} {c m : ENode} {d : Nat} (hc : c ∈ l)
      (h : MemDepth c.children m d) : MemDepth l m (d + 1)

/-- Strict span inclusion of a child inside its parent, the invariant of
parsed markup/stylesheet trees (a child starts after the parent's
opening delimiter and ends before its closing one). -/
def strictSpanIn (parent child : ENode) : Prop :=
  parent.start.isBefore child.start = true ∧ child.stop.isBefore parent.stop = true

instance (parent child : ENode) : Decidable (strictSpanIn parent child) := by
  unfold strictSpanIn
  infer_instance

/-- Sibling separation: an earlier sibling ends no later than a later
sibling starts. -/
def sibSep (a b : ENode) : Prop := a.stop.isBeforeOrEqual b.start = true

instance (a b : ENode) : Decidable (sibSep a b) := by
  unfold sibSep
  infer_instance

/-- Well-formed tree: children are pairwise separated in document order,
strictly inside their parent, and themselves well-formed. -/
inductive WFNode : ENode → Prop where
  | mk {n : ENode} (hsep : List.Pairwise sibSep n.children)
      (hspan : ∀ c ∈ n.children, strictSpanIn n c)
      (hwf : ∀ c ∈ n.children, WFNode c) : WFNode n

theorem WFNode.sep {n : ENode} (h : WFNode n) : List.Pairwise sibSep n.children := by
  cases h; assumption

theorem WFNode.span {n : ENode} (h : WFNode n) : ∀ c ∈ n.children, strictSpanIn n c := by
  cases h; assumption

theorem WFNode.wfChildren {n : ENode} (h : WFNode n) : ∀ c ∈ n.children, WFNode c := by
  cases h; assumption

/-- Lexicographic strict order on positions, in propositional form. -/
def posLt (a b : Pos) : Prop := a.line < b.line ∨ (a.line = b.line ∧ a.character < b.character)

/-- Lexicographic order on positions, in propositional form. -/
def posLe (a b : Pos) : Prop := a.line < b.line ∨ (a.line = b.line ∧ a.character ≤ b.character)

theorem nodeContains_true_iff {n : ENode} {p : Pos} {inc : Bool} :
    nodeContains n p inc = true ↔
      (posLt n.start p ∧ posLt p n.stop) ∨
        (inc = true ∧ posLe n.start p ∧ posLe p n.stop) := by
  unfold nodeContains Pos.isAfter Pos.isAfterOrEqual posLt posLe
  cases inc <;>
    simp [Pos.isBefore_iff, Pos.isBeforeOrEqual_iff]

theorem strictSpanIn_iff {a c : ENode} :
    strictSpanIn a c ↔ posLt a.start c.start ∧ posLt c.stop a.stop := by
  unfold strictSpanIn posLt
  simp [Pos.isBefore_iff]

theorem sibSep_iff {a b : ENode} : sibSep a b ↔ posLe a.stop b.start := by
  unfold sibSep posLe
  simp [Pos.isBeforeOrEqual_iff]

/-- A node containing the position (strictly or inclusively) brackets it. -/
theorem contains_le {m : ENode} {p : Pos} {inc : Bool}
    (h : nodeContains m p inc = true) : posLe m.start p ∧ posLe p m.stop := by
  rw [nodeContains_true_iff] at h
  unfold posLt posLe at *
  rcases h with ⟨h1, h2⟩ | ⟨_, h1, h2⟩ <;> constructor <;> omega

/-- A position contained in a child strictly inside `a` is strictly
inside `a` as well (upward closure of containment, one step). -/
theorem contains_of_span {a c : ENode} {p : Pos} {inc : Bool}
    (hs : strictSpanIn a c) (h : nodeContains c p inc = true) :
    posLt a.start p ∧ posLt p a.stop := by
  rw [strictSpanIn_iff] at hs
  have hle := contains_le h
  unfold posLt posLe at *
  constructor <;> omega

theorem contains_of_span' {a c : ENode} {p : Pos} {inc : Bool}
    (hs : strictSpanIn a c) (h : nodeContains c p inc = true) :
    nodeContains a p inc = true :=
  nodeContains_true_iff.mpr (Or.inl (contains_of_span hs h))

theorem memDepth_cons {n : ENode} {l : List ENode} {m : ENode} {d : Nat}
    (h : MemDepth l m d) : MemDepth (n :: l) m d := by
  cases h with
  | top h => exact .top (List.mem_cons_of_mem _ h)
  | child hc h => exact .child (List.mem_cons_of_mem _ hc) h

/-- Every member of a well-formed forest has a top-level node above it
(or is itself top-level) whose start does not lie after its own start. -/
theorem memDepth_top_ancestor : ∀ {l : List ENode} {m : ENode} {d : Nat},
    MemDepth l m d → (∀ c ∈ l, WFNode c) →
      ∃ x ∈ l, x = m ∨ posLt x.start m.start := by
  intro l m d h
  induction h with
  | top hm => exact fun _ => ⟨_, hm, Or.inl rfl⟩
  | @child l c m d hc h ih =>
    intro hwf
    have hwfc := hwf _ hc
    obtain ⟨x, hx, hxm⟩ := ih hwfc.wfChildren
    refine ⟨c, hc, Or.inr ?_⟩
    have hspan := strictSpanIn_iff.mp (hwfc.span _ hx)
    cases hxm with
    | inl e =>
      subst e
      exact hspan.1
    | inr hlt =>
      unfold posLt at *
      omega

/-- Every node strictly below a well-formed node starts strictly after it. -/
theorem wf_start_lt {a m : ENode} {e : Nat} (hwf : WFNode a)
    (h : MemDepth a.children m e) : posLt a.start m.start := by
  obtain ⟨x, hx, hxm⟩ := memDepth_top_ancestor h hwf.wfChildren
  have hspan := strictSpanIn_iff.mp (hwf.span _ hx)
  cases hxm with
  | inl e => subst e; exact hspan.1
  | inr hlt => unfold posLt at *; omega

/-- Containment at any depth propagates to some top-level node of the forest. -/
theorem memDepth_contains_top : ∀ {l : List ENode} {m : ENode} {d : Nat},
    MemDepth l m d → (∀ c ∈ l, WFNode c) → ∀ {p : Pos} {inc : Bool},
      nodeContains m p inc = true → ∃ x ∈ l, nodeContains x p inc = true := by
  intro l m d h
  induction h with
  | top hm => exact fun _ _ _ hc => ⟨_, hm, hc⟩
  | @child l c m d hc h ih =>
    intro hwf p inc hcont
    have hwfc := hwf _ hc
    obtain ⟨x, hx, hxcont⟩ := ih hwfc.wfChildren hcont
    exact ⟨c, hc, contains_of_span' (hwfc.span _ hx) hxcont⟩

/-- Containment below a well-formed node propagates to the node itself. -/
theorem wf_contains_up {a m : ENode} {e : Nat} {p : Pos} {inc : Bool}
    (hwf : WFNode a) (h : MemDepth a.children m e)
    (hc : nodeContains m p inc = true) : nodeContains a p inc = true := by
  obtain ⟨x, hx, hxcont⟩ := memDepth_contains_top h hwf.wfChildren hc
  exact contains_of_span' (hwf.span _ hx) hxcont

theorem getNodeList_nil (p : Pos) (inc : Bool) (found : Option ENode) :
    getNodeList [] p inc found = found := by
  simp [getNodeList]

theorem getNodeList_cons_pos {n : ENode} {p : Pos} {inc : Bool}
    (rest : List ENode) (found : Option ENode)
    (h : nodeContains n p inc = true) :
    getNodeList (n :: rest) p inc found = getNodeList n.children p inc (some n) := by
  rw [getNodeList]
  simp [h]

theorem getNodeList_cons_neg {n : ENode} {p : Pos} {inc : Bool}
    (rest : List ENode) (found : Option ENode)
    (h : nodeContains n p inc = false) :
    getNodeList (n :: rest) p inc found = getNodeList rest p inc found := by
  rw [getNodeList]
  simp [h]

/-- The `found` accumulator only matters when the scan finds nothing:
the result is the accumulator-free result when that is a match, and
`found` otherwise. -/
theorem getNodeList_found_eq : ∀ (l : List ENode) (p : Pos) (inc : Bool)
    (found : Option ENode),
    getNodeList l p inc found =
      match getNodeList l p inc none with
      | some m => some m
      | none => found
  | [], p, inc, found => by simp [getNodeList_nil]
  | n :: rest, p, inc, found => by
    cases hcont : nodeContains n p inc with
    | true =>
      rw [getNodeList_cons_pos rest found hcont, getNodeList_cons_pos rest none hcont]
      rw [getNodeList_found_eq n.children p inc (some n)]
      cases hr : getNodeList n.children p inc none <;> simp
    | false =>
      rw [getNodeList_cons_neg rest found hcont, getNodeList_cons_neg rest none hcont]
      exact getNodeList_found_eq rest p inc found
termination_by l _ _ _ => sizeOf l
decreasing_by
  all_goals first
    | exact sizeOf_children_lt n _
    | exact sizeOf_rest_lt n rest

/-- Specification of the locator on a forest: if the scan returns
nothing, no node at any depth contains the position; if it returns a
node, that node contains the position and has maximal depth among all
containing nodes. -/
def getNodeSpec (l : List ENode) (p : Pos) (inc : Bool) : Prop :=
  (getNodeList l p inc none = none →
      ∀ m d, MemDepth l m d → nodeContains m p inc = false) ∧
  (∀ n, getNodeList l p inc none = some n →
      nodeContains n p inc = true ∧
        ∃ d, MemDepth l n d ∧
          ∀ m d', MemDepth l m d' → nodeContains m p inc = true → d' ≤ d)

/-- Correctness of the locator scan on a well-formed ordered forest:
the scan returns `none` exactly when no node at any depth contains the
position, and otherwise returns a containing node of maximal depth. -/
theorem getNodeList_correct : ∀ (l : List ENode),
    List.Pairwise sibSep l → (∀ x ∈ l, WFNode x) →
    ∀ (p : Pos) (inc : Bool), getNodeSpec l p inc
  | [], _, _, p, inc => by
    constructor
    · intro _ m d hm
      cases hm with
      | top h => simp at h
      | child hc h => simp at hc
    · intro n hn
      rw [getNodeList_nil] at hn
      cases hn
  | n :: rest, hsep, hwf, p, inc => by
    have hwfn : WFNode n := hwf n (List.mem_cons_self n rest)
    have hsepn : ∀ a ∈ rest, sibSep n a := (List.pairwise_cons.mp hsep).1
    have hseprest : List.Pairwise sibSep rest := (List.pairwise_cons.mp hsep).2
    have hwfrest : ∀ x ∈ rest, WFNode x := fun x hx => hwf x (List.mem_cons_of_mem n hx)
    cases hcont : nodeContains n p inc with
    | true =>
      have hchild := getNodeList_correct n.children hwfn.sep hwfn.wfChildren p inc
      have heq : getNodeList (n :: rest) p inc none = getNodeList n.children p inc (some n) :=
        getNodeList_cons_pos rest none hcont
      have hrest_kill : ∀ (a : ENode), a ∈ rest → ∀ (m' : ENode) (e : Nat),
          MemDepth a.children m' e → nodeContains m' p inc = true → False := by
        intro a ha m' e hmd hcm
        have hconta : nodeContains a p inc = true :=
          wf_contains_up (hwf a (List.mem_cons_of_mem n ha)) hmd hcm
        have hsepna := sibSep_iff.mp (hsepn a ha)
        have h1 := contains_le hcont
        have h2 := contains_le hconta
        have h3 := wf_start_lt (hwf a (List.mem_cons_of_mem n ha)) hmd
        have h4 := (contains_le hcm).1
        unfold posLt posLe at *
        omega
      cases hr : getNodeList n.children p inc none with
      | none =>
        have heq2 : getNodeList (n :: rest) p inc none = some n := by
          rw [heq, getNodeList_found_eq, hr]
        constructor
        · intro hnone
          rw [heq2] at hnone
          cases hnone
        · intro n' hn'
          rw [heq2] at hn'
          injection hn' with hn'e
          subst hn'e
          refine ⟨hcont, 0, .top (List.mem_cons_self _ _), ?_⟩
          intro m d' hm hcm
          cases hm with
          | top _ => exact Nat.le_refl 0
          | child hc hmd =>
            exfalso
            rcases List.mem_cons.mp hc with hcn | hcr
            · subst hcn
              have := hchild.1 hr _ _ hmd
              rw [hcm] at this
              cases this
            · exact hrest_kill _ hcr _ _ hmd hcm
      | some m =>
        have heq2 : getNodeList (n :: rest) p inc none = some m := by
          rw [heq, getNodeList_found_eq, hr]
        constructor
        · intro hnone
          rw [heq2] at hnone
          cases hnone
        · intro n' hn'
          rw [heq2] at hn'
          injection hn' with hn'e
          subst hn'e
          obtain ⟨hcm, d, hd, hmax⟩ := hchild.2 m hr
          refine ⟨hcm, d + 1, .child (List.mem_cons_self _ _) hd, ?_⟩
          intro m' d' hm' hcm'
          cases hm' with
          | top _ => omega
          | child hc hmd =>
            rcases List.mem_cons.mp hc with hcn | hcr
            · subst hcn
              have := hmax _ _ hmd hcm'
              omega
            · exact (hrest_kill _ hcr _ _ hmd hcm').elim
    | false =>
      have hrest := getNodeList_correct rest hseprest hwfrest p inc
      have heq : getNodeList (n :: rest) p inc none = getNodeList rest p inc none :=
        getNodeList_cons_neg rest none hcont
      constructor
      · intro hnone m d hm
        rw [heq] at hnone
        cases hb : nodeContains m p inc with
        | false => rfl
        | true =>
          exfalso
          cases hm with
          | top h =>
            rcases List.mem_cons.mp h with h1 | h2
            · subst h1
              rw [hcont] at hb
              cases hb
            · have := hrest.1 hnone _ _ (.top h2)
              rw [hb] at this
              cases this
          | child hc hmd =>
            rcases List.mem_cons.mp hc with h1 | h2
            · subst h1
              have := wf_contains_up hwfn hmd hb
              rw [hcont] at this
              cases this
            · have := hrest.1 hnone _ _ (.child h2 hmd)
              rw [hb] at this
              cases this
      · intro n' hn'
        rw [heq] at hn'
        obtain ⟨hcn', d, hd, hmax⟩ := hrest.2 n' hn'
        refine ⟨hcn', d, memDepth_cons hd, ?_⟩
        intro m' d' hm' hcm'
        cases hm' with
        | top h =>
          rcases List.mem_cons.mp h with h1 | h2
          · subst h1
            rw [hcont] at hcm'
            cases hcm'
          · exact hmax _ _ (.top h2) hcm'
        | child hc hmd =>
          rcases List.mem_cons.mp hc with h1 | h2
          · subst h1
            exfalso
            have := wf_contains_up hwfn hmd hcm'
            rw [hcont] at this
            cases this
          · exact hmax _ _ (.child h2 hmd) hcm'
termination_by l _ _ _ _ => sizeOf l
decreasing_by
  all_goals first
    | exact sizeOf_children_lt n _
    | exact sizeOf_rest_lt n rest

/-- C1: for every well-formed tree root and position, `getNode(root,
position, includeNodeBoundary)` returns a deepest node whose span
contains the position — containment strict when `includeNodeBoundary`
is false and inclusive of boundary equality when it is true — and
returns nothing when the root has no children or no node contains the
position.  Well-formedness is the tree invariant of section 3 of the
spec: children lie strictly inside their parent and siblings are
disjoint in document order. -/
theorem getNode_returns_deepest (root : ENode) (p : Pos) (inc : Bool)
    (hwf : WFNode root) :
    (root.children = [] → getNode (some root) p inc = none) ∧
    (getNode (some root) p inc = none →
      ∀ m d, MemDepth root.children m d → nodeContains m p inc = false) ∧
    (∀ n, getNode (some root) p inc = some n →
      nodeContains n p inc = true ∧
        ∃ d, MemDepth root.children n d ∧
          ∀ m d', MemDepth root.children m d' → nodeContains m p inc = true → d' ≤ d) := by
  have hspec := getNodeList_correct root.children hwf.sep hwf.wfChildren p inc
  refine ⟨?_, hspec.1, hspec.2⟩
  intro h
  show getNodeList root.children p inc none = none
  rw [h, getNodeList_nil]

def witLeaf : ENode := ENode.mk "tag" "b" ⟨0, 5⟩ ⟨0, 20⟩ ⟨0, 8⟩ none [] []

def witA : ENode := ENode.mk "tag" "a" ⟨0, 1⟩ ⟨0, 40⟩ ⟨0, 4⟩ none [] [witLeaf]

def witB : ENode := ENode.mk "tag" "c" ⟨0, 41⟩ ⟨0, 60⟩ ⟨0, 44⟩ none [] []

def witRoot : ENode := ENode.mk "root" "" ⟨0, 0⟩ ⟨0, 100⟩ ⟨0, 0⟩ none [] [witA, witB]

theorem witLeaf_wf : WFNode witLeaf := by
  refine WFNode.mk ?_ ?_ ?_ <;> simp [witLeaf, ENode.children]

theorem witB_wf : WFNode witB := by
  refine WFNode.mk ?_ ?_ ?_ <;> simp [witB, ENode.children]

theorem witA_wf : WFNode witA := by
  refine WFNode.mk ?_ ?_ ?_
  · simp [witA, ENode.children]
  · intro c hc
    simp [witA, ENode.children] at hc
    subst hc
    decide
  · intro c hc
    simp [witA, ENode.children] at hc
    subst hc
    exact witLeaf_wf

theorem witRoot_wf : WFNode witRoot := by
  refine WFNode.mk ?_ ?_ ?_
  · simp only [witRoot, ENode.children]
    decide
  · intro c hc
    simp [witRoot, ENode.children] at hc
    rcases hc with h | h <;> subst h <;> decide
  · intro c hc
    simp [witRoot, ENode.children] at hc
    rcases hc with h | h <;> subst h
    · exact witA_wf
    · exact witB_wf

/-- Witness for C1 at a concrete two-level tree and a position inside
the inner leaf. -/
theorem getNode_returns_deepest_witness :
    (witRoot.children = [] → getNode (some witRoot) ⟨0, 10⟩ true = none) ∧
    (getNode (some witRoot) ⟨0, 10⟩ true = none →
      ∀ m d, MemDepth witRoot.children m d → nodeContains m ⟨0, 10⟩ true = false) ∧
    (∀ n, getNode (some witRoot) ⟨0, 10⟩ true = some n →
      nodeContains n ⟨0, 10⟩ true = true ∧
        ∃ d, MemDepth witRoot.children n d ∧
          ∀ m d', MemDepth witRoot.children m d' →
            nodeContains m ⟨0, 10⟩ true = true → d' ≤ d) :=
  getNode_returns_deepest witRoot ⟨0, 10⟩ true witRoot_wf

/-- A node of the sibling/parent pointer graph used by
`getNodesInBetween`: span plus `parent` and `nextSibling` references,
represented as indices into an arena (back-references cannot be
represented directly in an inductive tree). -/
structure SNode where
  start : Pos
  stop : Pos
  parent : Option Nat
  nextSibling : Option Nat
deriving DecidableEq, Repr, Inhabited

/-- An arena of pointer-linked nodes; indices play the role of object
references. -/
structure SArena where
  nodes : List SNode
deriving Repr

def SArena.get (a : SArena) (i : Nat) : SNode := a.nodes.getD i default

/-- `sameNodes(node1, node2)` from util.ts: false when either reference
is missing, otherwise equality of both span endpoints. -/
def sameNodes (a : SArena) : Option Nat → Option Nat → Bool
  | some i, some j =>
    ((a.get i).start.isEqual (a.get j).start) && ((a.get i).stop.isEqual (a.get j).stop)
  | _, _ => false

/-- First widening loop of `getNodesInBetween`: while node1 has a parent
ending before node2's start, replace node1 by its parent. -/
def ascendNode1 (a : SArena) : Nat → Nat → Nat → Nat
  | 0, n1, _ => n1
  | fuel + 1, n1, n2 =>
    match (a.get n1).parent with
    | some pr =>
      if (a.get pr).stop.isBefore (a.get n2).start then ascendNode1 a fuel pr n2 else n1
    | none => n1

/-- Second widening loop of `getNodesInBetween`: while node2 has a
parent starting after node1's start, replace node2 by its parent. -/
def ascendNode2 (a : SArena) : Nat → Nat → Nat → Nat
  | 0, _, n2 => n2
  | fuel + 1, n1, n2 =>
    match (a.get n2).parent with
    | some pr =>
      if (a.get pr).start.isAfter (a.get n1).start then ascendNode2 a fuel n1 pr else n2
    | none => n2

/-- Collection loop of `getNodesInBetween`: starting at node1, push the
current node and move to its next sibling while the reference is present
and `position` (node2's end) is after the current node's start. -/
def collectSiblings (a : SArena) : Nat → Option Nat → Pos → List Nat
  | 0, _, _ => []
  | _ + 1, none, _ => []
  | fuel + 1, some cur, position =>
    if position.isAfter (a.get cur).start then
      cur :: collectSiblings a fuel ((a.get cur).nextSibling) position
    else []

/-- `getNodesInBetween(node1, node2)` from util.ts.  The unbounded
`while` loops are given explicit fuel; every theorem about this function
is at inputs on which the fuel is not exhausted. -/
def getNodesInBetween (a : SArena) (fuel : Nat) (node1 node2 : Nat) : List Nat :=
  if sameNodes a (some node1) (some node2) then [node1]
  else if !(sameNodes a (a.get node1).parent (a.get node2).parent) then
    if (a.get node2).start.isBefore (a.get node1).start then [node2]
    else if (a.get node2).start.isBefore (a.get node1).stop then [node1]
    else
      let n1 := ascendNode1 a fuel node1 node2
      let n2 := ascendNode2 a fuel n1 node2
      collectSiblings a fuel (some n1) (a.get n2).stop
  else
    collectSiblings a fuel (some node1) (a.get node2).stop

/-- The C2 scenario: a parent node 0 with three children in order,
A = node 1 spanning [10,20], C = node 2 spanning [20,30], and
B = node 3 spanning [30,40]. -/
def arenaC2 : SArena :=
  ⟨[⟨⟨0, 0⟩, ⟨0, 50⟩, none, none⟩,
    ⟨⟨0, 10⟩, ⟨0, 20⟩, some 0, some 2⟩,
    ⟨⟨0, 20⟩, ⟨0, 30⟩, some 0, some 3⟩,
    ⟨⟨0, 30⟩, ⟨0, 40⟩, some 0, none⟩]⟩

/-- C2 counterexample: on siblings A=[10,20], C=[20,30], B=[30,40], the
collection loop runs while node2's end (40) is after the current node's
start, and B's own start (30) satisfies that test, so the code returns
[A, C, B] — not [A, C] as the claim states. -/
theorem getNodesInBetween_not_AC :
    getNodesInBetween arenaC2 10 1 3 ≠ [1, 2] ∧
      ((arenaC2.get 3).start.isBefore (arenaC2.get 3).stop = true) := by
  decide

/-- C2 (amended): for siblings A=[10,20], C=[20,30], B=[30,40],
`getNodesInBetween(A, B)` returns exactly [A, C, B]; B itself is
included because its start lies before B's end. -/
theorem getNodesInBetween_returns_ACB :
    getNodesInBetween arenaC2 10 1 3 = [1, 2, 3] := by
  decide

/-- A line of document text. -/
abbrev Line := List Char

/-- A text document as exposed by the editor's document accessor:
language identifier plus lines of characters.  The document text is the
lines joined by a newline character; stream positions are represented
as absolute offsets into that text. -/
structure TextDocument where
  languageId : String
  lines : List Line

/-- Length of the document text (lines joined by single newlines). -/
def docLength : List Line → Nat
  | [] => 0
  | [l] => l.length
  | l :: l2 :: ls => l.length + 1 + docLength (l2 :: ls)

/-- Character of the document text at an offset. -/
def docCharAt : List Line → Nat → Option Char
  | [], _ => none
  | [l], o => l.get? o
  | l :: l2 :: ls, o =>
    if o < l.length then l.get? o
    else if o = l.length then some '\n'
    else docCharAt (l2 :: ls) (o - l.length - 1)

/-- The document text as a flat character list. -/
def docText : List Line → List Char
  | [] => []
  | [l] => l
  | l :: l2 :: ls => l ++ '\n' :: docText (l2 :: ls)

/-- Modelled from the spec: the editor's offset-to-position conversion
(document accessor, an external collaborator); offsets past the end
clamp to the end of the document. -/
def positionAtAux : List Line → Nat → Nat → Pos
  | [], ln, _ => ⟨ln, 0⟩
  | [l], ln, o => ⟨ln, min o l.length⟩
  | l :: l2 :: ls, ln, o =>
    if o ≤ l.length then ⟨ln, o⟩ else positionAtAux (l2 :: ls) (ln + 1) (o - l.length - 1)

def positionAt (d : TextDocument) (o : Nat) : Pos := positionAtAux d.lines 0 o

/-- Modelled from the spec: the editor's position-to-offset conversion
(document accessor, an external collaborator); positions are validated
by clamping the character to the line length and the line to the last
line. -/
def offsetAtAux : List Line → Nat → Nat → Nat
  | [], _, _ => 0
  | [l], 0, c => min c l.length
  | [l], _ + 1, _ => l.length
  | l :: _ :: _, 0, c => min c l.length
  | l :: l2 :: ls, line + 1, c => l.length + 1 + offsetAtAux (l2 :: ls) line c

def offsetAt (d : TextDocument) (p : Pos) : Nat := offsetAtAux d.lines p.line p.character

def lineAt (d : TextDocument) (i : Nat) : Line := d.lines.getD i []

def lineCount (d : TextDocument) : Nat := d.lines.length

/-- The end-of-document position `(lineCount - 1, length of last line)`. -/
def docEndPos (d : TextDocument) : Pos :=
  ⟨lineCount d - 1, (lineAt d (lineCount d - 1)).length⟩

/-- Index of the first occurrence of the two-character pattern `c1 c2`. -/
def firstIdx2 : List Char → Char → Char → Option Nat
  | [], _, _ => none
  | [_], _, _ => none
  | a :: b :: rest, c1, c2 =>
    if a = c1 ∧ b = c2 then some 0
    else (firstIdx2 (b :: rest) c1 c2).map (· + 1)

/-- Index of the last occurrence of the two-character pattern `c1 c2`. -/
def lastIdx2 : List Char → Char → Char → Option Nat
  | [], _, _ => none
  | [_], _, _ => none
  | a :: b :: rest, c1, c2 =>
    match (lastIdx2 (b :: rest) c1 c2).map (· + 1) with
    | some i => some i
    | none => if a = c1 ∧ b = c2 then some 0 else none

theorem firstIdx2_bound : ∀ (cs : List Char) (c1 c2 : Char) (i : Nat),
    firstIdx2 cs c1 c2 = some i → i + 2 ≤ cs.length
  | [], _, _, _ => by simp [firstIdx2]
  | [_], _, _, _ => by simp [firstIdx2]
  | a :: b :: rest, c1, c2, i => by
    intro h
    rw [firstIdx2] at h
    split_ifs at h with hab
    · cases h
      simp
    · simp only [Option.map_eq_some'] at h
      obtain ⟨j, hj, hji⟩ := h
      have := firstIdx2_bound (b :: rest) c1 c2 j hj
      simp at this ⊢
      omega

theorem lastIdx2_bound : ∀ (cs : List Char) (c1 c2 : Char) (i : Nat),
    lastIdx2 cs c1 c2 = some i → i + 2 ≤ cs.length
  | [], _, _, _ => by simp [lastIdx2]
  | [_], _, _, _ => by simp [lastIdx2]
  | a :: b :: rest, c1, c2, i => by
    intro h
    rw [lastIdx2] at h
    cases hr : (lastIdx2 (b :: rest) c1 c2).map (· + 1) with
    | some j =>
      rw [hr] at h
      cases h
      simp only [Option.map_eq_some'] at hr
      obtain ⟨k, hk, hkj⟩ := hr
      have := lastIdx2_bound (b :: rest) c1 c2 k hk
      simp at this ⊢
      omega
    | none =>
      rw [hr] at h
      split_ifs at h with hab
      all_goals cases h
      all_goals simp

/-- Offset of the position one line below the line of offset `o`, at
column 0: the target of the forward line-comment skip
(`new Position(line + 1, 0)`). -/
def nextLineStart (d : TextDocument) (o : Nat) : Nat :=
  offsetAt d ⟨(positionAt d o).line + 1, 0⟩

/-- `findClosingCommentAfterPosition` of parsePartialStylesheet: the
offset just past the next block-comment closer at or after `o`. -/
def findClosingCommentAfter (d : TextDocument) (o : Nat) : Option Nat :=
  (firstIdx2 ((docText d.lines).drop o) '*' '/').map (fun i => o + i + 2)

/-- `findOpeningCommentBeforePosition` of parsePartialStylesheet: the
offset of the last block-comment opener strictly before `o`. -/
def findOpeningCommentBefore (d : TextDocument) (o : Nat) : Option Nat :=
  lastIdx2 ((docText d.lines).take o) '/' '*'

/-- `consumeCommentForwards` of parsePartialStylesheet, on stream
offsets.  The stream has just peeked a slash at `off`; a second slash
outside the strict css dialect skips to the start of the next line, a
star skips past the closing `*` `/` (or to `defaultEnd` — the current
end boundary, initially the end of the document — if none exists). -/
def consumeCommentForwards (d : TextDocument) (isCSS : Bool) (defaultEnd : Nat)
    (off : Nat) : Nat :=
  if docCharAt d.lines off = some '/' then
    if docCharAt d.lines (off + 1) = some '/' then
      if !isCSS then nextLineStart d (off + 2)
      else if docCharAt d.lines (off + 2) = some '*' then
        (findClosingCommentAfter d (off + 3)).getD defaultEnd
      else off + 2
    else if docCharAt d.lines (off + 1) = some '*' then
      (findClosingCommentAfter d (off + 2)).getD defaultEnd
    else off + 1
  else off

/-- The forward scan loop of parsePartialStylesheet: advance until end
of document or until a closing brace is consumed, letting
`consumeCommentForwards` handle slashes.  The loop is fueled; fuel
`docLength + 1` always suffices because every step advances the
offset. -/
def fwdLoop (d : TextDocument) (isCSS : Bool) : Nat → Nat → Nat
  | 0, off => off
  | fuel + 1, off =>
    if docLength d.lines ≤ off then off
    else if docCharAt d.lines off = some '}' then off + 1
    else if docCharAt d.lines off = some '/' then
      fwdLoop d isCSS fuel (consumeCommentForwards d isCSS (docLength d.lines) off)
    else fwdLoop d isCSS fuel (off + 1)

/-- The end boundary computed by the forward scan of
parsePartialStylesheet, as an offset: the final stream position when it
is not at end of document, else the document end. -/
def forwardEndOffset (d : TextDocument) (cursorOff : Nat) : Nat :=
  let r := fwdLoop d (d.languageId == "css") (docLength d.lines + 1) cursorOff
  if r < docLength d.lines then r else docLength d.lines

/-- State of the backward scans of parsePartialStylesheet: the stream
offset, the `currentLine` tracker of `consumeLineCommentBackwards`, the
`openBracesToFind` counter, the `startPosition` boundary variable, the
`foundSelector` flag of the selector loop and the shared `exit` flag. -/
structure BwdState where
  off : Nat
  currentLine : Nat
  openBracesToFind : Int
  startPosition : Pos
  foundSelector : Bool
  exitFlag : Bool
deriving DecidableEq, Repr

/-- `consumeLineCommentBackwards`: outside the strict css dialect, on
entering a new line jump to the start of a `//` line comment on that
line, if any. -/
def consumeLineCommentBackwards (d : TextDocument) (isCSS : Bool) (s : BwdState) :
    BwdState :=
  if !isCSS && s.currentLine != (positionAt d s.off).line then
    let cl := (positionAt d s.off).line
    match firstIdx2 (lineAt d cl) '/' '/' with
    | some i => { s with currentLine := cl, off := offsetAt d ⟨cl, i⟩ }
    | none => { s with currentLine := cl }
  else s

/-- `consumeBlockCommentBackwards`: with the stream on a slash, if the
preceding character is a star jump to the last block-comment opener
before it (or to the current `startPosition` boundary if none);
otherwise step back and forward again, a net no-op. -/
def consumeBlockCommentBackwards (d : TextDocument) (s : BwdState) : BwdState :=
  if docCharAt d.lines s.off = some '/' then
    if docCharAt d.lines (s.off - 1) = some '*' then
      { s with off := (findOpeningCommentBefore d (s.off - 1)).getD (offsetAt d s.startPosition) }
    else s
  else s

/-- The `backUp`-and-switch part of one iteration of the main backward
loop of parsePartialStylesheet: line-comment adjustment, one `backUp`,
then the brace/slash switch. -/
def bwdSwitchStep (d : TextDocument) (isCSS : Bool) (s : BwdState) : BwdState :=
  let s1 := consumeLineCommentBackwards d isCSS s
  let ch := docCharAt d.lines (s1.off - 1)
  let s2 : BwdState := { s1 with off := s1.off - 1 }
  if ch = some '{' then { s2 with openBracesToFind := s2.openBracesToFind - 1 }
  else if ch = some '}' then
    if isCSS then
      { s2 with
        off := s2.off + 1
        startPosition := positionAt d (s2.off + 1)
        exitFlag := true }
    else { s2 with openBracesToFind := s2.openBracesToFind + 1 }
  else if ch = some '/' then consumeBlockCommentBackwards d s2
  else s2

/-- The 100-line / 5000-character limit check at the end of each
backward-loop iteration: it only ever sets the exit flag. -/
def bwdCheckLimit (d : TextDocument) (cursor limitPos : Pos) (s : BwdState) : BwdState :=
  if ((cursor.line : Int) - ((positionAt d s.off).line : Int) > 100)
      ∨ (positionAt d s.off).isBeforeOrEqual limitPos = true then
    { s with exitFlag := true }
  else s

/-- One iteration of the main backward loop of parsePartialStylesheet:
line-comment adjustment, one `backUp`, the brace/slash switch, then the
100-line / 5000-character limit check that sets the exit flag. -/
def bwdIter (d : TextDocument) (isCSS : Bool) (cursor limitPos : Pos) (s : BwdState) :
    BwdState :=
  bwdCheckLimit d cursor limitPos (bwdSwitchStep d isCSS s)

/-- Stopping condition of the main backward loop (negation of
`!exit && openBracesToFind > 0 && !sof`). -/
def bwdStop (s : BwdState) : Prop :=
  s.exitFlag = true ∨ s.openBracesToFind ≤ 0 ∨ s.off = 0

instance (s : BwdState) : Decidable (bwdStop s) := by
  unfold bwdStop
  infer_instance

/-- The main backward loop of parsePartialStylesheet, fueled. -/
def bwdLoop (d : TextDocument) (isCSS : Bool) (cursor limitPos : Pos) :
    Nat → BwdState → BwdState
  | 0, s => s
  | fuel + 1, s =>
    if bwdStop s then s
    else bwdLoop d isCSS cursor limitPos fuel (bwdIter d isCSS cursor limitPos s)

/-- Whitespace test used by the selector loop (`\s` on ASCII). -/
def isSpaceChar (c : Char) : Bool :=
  c = ' ' || c = '\t' || c = '\n' || c = '\r' || c = '\x0b' || c = '\x0c'

/-- One iteration of the selector-inclusion loop of
parsePartialStylesheet: line-comment adjustment, one `backUp`, skip
whitespace (a `continue`, skipping the boundary update), the
brace/slash/selector switch, then the `startPosition` update when a
selector character was found away from the start of the document. -/
def selIter (d : TextDocument) (isCSS : Bool) (s : BwdState) : BwdState :=
  let s1 := consumeLineCommentBackwards d isCSS s
  let ch := docCharAt d.lines (s1.off - 1)
  let s2 : BwdState := { s1 with off := s1.off - 1 }
  match ch with
  | some c =>
    if isSpaceChar c then s2
    else
      let s3 :=
        if c = '/' then consumeBlockCommentBackwards d s2
        else if c = '}' then { s2 with openBracesToFind := s2.openBracesToFind + 1 }
        else if c = '{' then { s2 with openBracesToFind := s2.openBracesToFind - 1 }
        else if s2.openBracesToFind = 0 then { s2 with foundSelector := true }
        else s2
      if s3.off ≠ 0 ∧ s3.foundSelector = true then
        { s3 with startPosition := positionAt d s3.off }
      else s3
  | none =>
    let s3 := if s2.openBracesToFind = 0 then { s2 with foundSelector := true } else s2
    if s3.off ≠ 0 ∧ s3.foundSelector = true then
      { s3 with startPosition := positionAt d s3.off }
    else s3

/-- Stopping condition of the selector loop (negation of
`!exit && !sof && !foundSelector && openBracesToFind >= 0`). -/
def selStop (s : BwdState) : Prop :=
  s.exitFlag = true ∨ s.off = 0 ∨ s.foundSelector = true ∨ s.openBracesToFind < 0

instance (s : BwdState) : Decidable (selStop s) := by
  unfold selStop
  infer_instance

/-- The selector-inclusion loop of parsePartialStylesheet, fueled. -/
def selLoop (d : TextDocument) (isCSS : Bool) : Nat → BwdState → BwdState
  | 0, s => s
  | fuel + 1, s =>
    if selStop s then s
    else selLoop d isCSS fuel (selIter d isCSS s)

/-- The 5000-character backward limit: the position 5000 characters
before the cursor when that is positive, else the document start. -/
def limitPositionOf (d : TextDocument) (position : Pos) : Pos :=
  let limitCharacter : Int := (offsetAt d position : Int) - 5000
  if limitCharacter > 0 then positionAt d limitCharacter.toNat else ⟨0, 0⟩

/-- The (start, end) boundary pair computed by `parsePartialStylesheet`
and handed to the stylesheet parser (the parse over that range is
external; see `parsePartialStylesheetResult`). -/
def parsePartialStylesheetRange (d : TextDocument) (position : Pos) : Pos × Pos :=
  let isCSS := d.languageId == "css"
  let limitPosition := limitPositionOf d position
  let cursorOff := offsetAt d position
  let endOff := forwardEndOffset d cursorOff
  let endPosition := if endOff < docLength d.lines then positionAt d endOff else docEndPos d
  let fuelScan := 2 * docLength d.lines + lineCount d + 2
  let s0 : BwdState :=
    { off := cursorOff
      currentLine := position.line
      openBracesToFind := 1
      startPosition := ⟨0, 0⟩
      foundSelector := false
      exitFlag := false }
  let s1 := bwdLoop d isCSS position limitPosition fuelScan s0
  let s2 := selLoop d isCSS fuelScan
    { s1 with
      currentLine := (positionAt d s1.off).line
      openBracesToFind := 0
      foundSelector := false }
  (s2.startPosition, endPosition)

theorem consumeLineCommentBackwards_noop {d : TextDocument} {isCSS : Bool} {s : BwdState}
    (h : s.currentLine = (positionAt d s.off).line) :
    consumeLineCommentBackwards d isCSS s = s := by
  unfold consumeLineCommentBackwards
  rw [h]
  simp

theorem bwdCheckLimit_off (d : TextDocument) (cursor limitPos : Pos) (s : BwdState) :
    (bwdCheckLimit d cursor limitPos s).off = s.off ∧
    (bwdCheckLimit d cursor limitPos s).openBracesToFind = s.openBracesToFind ∧
    (bwdCheckLimit d cursor limitPos s).startPosition = s.startPosition ∧
    (bwdCheckLimit d cursor limitPos s).currentLine = s.currentLine := by
  unfold bwdCheckLimit
  split_ifs <;> simp

theorem bwdCheckLimit_exit (d : TextDocument) (cursor limitPos : Pos) (s : BwdState)
    (h : s.exitFlag = true) : (bwdCheckLimit d cursor limitPos s).exitFlag = true := by
  unfold bwdCheckLimit
  split_ifs <;> simp [h]

theorem bwdLoop_stop {d : TextDocument} {isCSS : Bool} {cursor limitPos : Pos} :
    ∀ (fuel : Nat) (s : BwdState), bwdStop s →
      bwdLoop d isCSS cursor limitPos fuel s = s
  | 0, s, _ => rfl
  | fuel + 1, s, h => by
    unfold bwdLoop
    rw [if_pos h]

/-- C6: during the backward scan, with the line-comment tracker already
on the stream's line (so the adjustment is a no-op), consuming a closing
brace in the strict 'css' dialect ends the scan — the exit flag is set,
the block start boundary is placed one character forward of the brace,
and the brace counter is untouched — while in a lenient (non-css)
dialect it instead increments `openBracesToFind`, skipping the nested
block; consuming an opening brace decrements the counter in either
dialect.  An exited state is final: the loop returns it unchanged. -/
theorem bwdIter_brace_policy (d : TextDocument) (isCSS : Bool) (cursor limitPos : Pos)
    (s : BwdState) (hline : s.currentLine = (positionAt d s.off).line)
    (hoff : 1 ≤ s.off) :
    (docCharAt d.lines (s.off - 1) = some '}' →
      (isCSS = true →
        (bwdIter d isCSS cursor limitPos s).exitFlag = true ∧
        (bwdIter d isCSS cursor limitPos s).startPosition = positionAt d s.off ∧
        (bwdIter d isCSS cursor limitPos s).openBracesToFind = s.openBracesToFind ∧
        (bwdIter d isCSS cursor limitPos s).off = s.off) ∧
      (isCSS = false →
        (bwdIter d isCSS cursor limitPos s).openBracesToFind = s.openBracesToFind + 1 ∧
        (bwdIter d isCSS cursor limitPos s).off = s.off - 1 ∧
        (bwdIter d isCSS cursor limitPos s).startPosition = s.startPosition)) ∧
    (docCharAt d.lines (s.off - 1) = some '{' →
      (bwdIter d isCSS cursor limitPos s).openBracesToFind = s.openBracesToFind - 1 ∧
      (bwdIter d isCSS cursor limitPos s).off = s.off - 1 ∧
      (bwdIter d isCSS cursor limitPos s).startPosition = s.startPosition) ∧
    (∀ (fuel : Nat) (s' : BwdState), s'.exitFlag = true →
      bwdLoop d isCSS cursor limitPos fuel s' = s') := by
  refine ⟨?_, ?_, ?_⟩
  · intro hch
    have hsw : bwdSwitchStep d isCSS s =
        (if isCSS then
          { s with
            off := s.off - 1 + 1
            startPosition := positionAt d (s.off - 1 + 1)
            exitFlag := true }
        else { s with off := s.off - 1, openBracesToFind := s.openBracesToFind + 1 }) := by
      unfold bwdSwitchStep
      rw [consumeLineCommentBackwards_noop hline]
      simp only [hch]
      simp
    constructor
    · intro hcss
      subst hcss
      rw [if_pos rfl] at hsw
      have hadd : s.off - 1 + 1 = s.off := by omega
      rw [hadd] at hsw
      unfold bwdIter
      rw [hsw]
      have h1 := bwdCheckLimit_off d cursor limitPos
        { s with off := s.off, startPosition := positionAt d s.off, exitFlag := true }
      have h2 := bwdCheckLimit_exit d cursor limitPos
        { s with off := s.off, startPosition := positionAt d s.off, exitFlag := true } rfl
      exact ⟨h2, by rw [h1.2.2.1], by rw [h1.2.1], by rw [h1.1]⟩
    · intro hcss
      subst hcss
      rw [if_neg (by simp)] at hsw
      unfold bwdIter
      rw [hsw]
      have h1 := bwdCheckLimit_off d cursor limitPos
        { s with off := s.off - 1, openBracesToFind := s.openBracesToFind + 1 }
      exact ⟨by rw [h1.2.1], by rw [h1.1], by rw [h1.2.2.1]⟩
  · intro hch
    have hsw : bwdSwitchStep d isCSS s =
        { s with off := s.off - 1, openBracesToFind := s.openBracesToFind - 1 } := by
      unfold bwdSwitchStep
      rw [consumeLineCommentBackwards_noop hline]
      simp only [hch]
      simp
    unfold bwdIter
    rw [hsw]
    have h1 := bwdCheckLimit_off d cursor limitPos
      { s with off := s.off - 1, openBracesToFind := s.openBracesToFind - 1 }
    exact ⟨by rw [h1.2.1], by rw [h1.1], by rw [h1.2.2.1]⟩
  · intro fuel s' h
    exact bwdLoop_stop fuel s' (Or.inl h)

/-- Document `a}{b` for the C6 witness, in both dialects. -/
def wdoc6 : TextDocument := ⟨"css", [['a', '}', '{', 'b']]⟩

def wdoc6s : TextDocument := ⟨"scss", [['a', '}', '{', 'b']]⟩

def wstate6 : BwdState :=
  { off := 2
    currentLine := 0
    openBracesToFind := 1
    startPosition := ⟨0, 0⟩
    foundSelector := false
    exitFlag := false }

def wstate6b : BwdState := { wstate6 with off := 3 }

/-- Witness for C6: concrete backward-scan iterations over `a}{b` — the
closing brace at offset 1 in css versus scss, and the opening brace at
offset 2. -/
theorem bwdIter_brace_policy_witness :
    ((bwdIter wdoc6 true ⟨0, 4⟩ ⟨0, 0⟩ wstate6).exitFlag = true ∧
      (bwdIter wdoc6 true ⟨0, 4⟩ ⟨0, 0⟩ wstate6).startPosition = positionAt wdoc6 wstate6.off ∧
      (bwdIter wdoc6 true ⟨0, 4⟩ ⟨0, 0⟩ wstate6).openBracesToFind = wstate6.openBracesToFind ∧
      (bwdIter wdoc6 true ⟨0, 4⟩ ⟨0, 0⟩ wstate6).off = wstate6.off) ∧
    ((bwdIter wdoc6s false ⟨0, 4⟩ ⟨0, 0⟩ wstate6).openBracesToFind =
        wstate6.openBracesToFind + 1 ∧
      (bwdIter wdoc6s false ⟨0, 4⟩ ⟨0, 0⟩ wstate6).off = wstate6.off - 1 ∧
      (bwdIter wdoc6s false ⟨0, 4⟩ ⟨0, 0⟩ wstate6).startPosition = wstate6.startPosition) ∧
    ((bwdIter wdoc6 true ⟨0, 4⟩ ⟨0, 0⟩ wstate6b).openBracesToFind =
        wstate6b.openBracesToFind - 1 ∧
      (bwdIter wdoc6 true ⟨0, 4⟩ ⟨0, 0⟩ wstate6b).off = wstate6b.off - 1 ∧
      (bwdIter wdoc6 true ⟨0, 4⟩ ⟨0, 0⟩ wstate6b).startPosition = wstate6b.startPosition) :=
  ⟨((bwdIter_brace_policy wdoc6 true ⟨0, 4⟩ ⟨0, 0⟩ wstate6 (by decide) (by decide)).1
      (by decide)).1 rfl,
    ((bwdIter_brace_policy wdoc6s false ⟨0, 4⟩ ⟨0, 0⟩ wstate6 (by decide) (by decide)).1
      (by decide)).2 rfl,
    (bwdIter_brace_policy wdoc6 true ⟨0, 4⟩ ⟨0, 0⟩ wstate6b (by decide) (by decide)).2.1
      (by decide)⟩


theorem offsetAt_zero (d : TextDocument) : offsetAt d ⟨0, 0⟩ = 0 := by
  unfold offsetAt
  rcases d with ⟨lang, lines⟩
  match lines with
  | [] => rfl
  | [l] => simp [offsetAtAux]
  | l :: l2 :: ls => simp [offsetAtAux]

theorem consumeBlockCommentBackwards_le (d : TextDocument) (s : BwdState)
    (hstart : s.startPosition = ⟨0, 0⟩) :
    (consumeBlockCommentBackwards d s).off ≤ s.off ∧
    (consumeBlockCommentBackwards d s).currentLine = s.currentLine ∧
    (consumeBlockCommentBackwards d s).startPosition = s.startPosition ∧
    (consumeBlockCommentBackwards d s).openBracesToFind = s.openBracesToFind ∧
    (consumeBlockCommentBackwards d s).exitFlag = s.exitFlag := by
  unfold consumeBlockCommentBackwards
  split_ifs with h1 h2
  · refine ⟨?_, rfl, rfl, rfl, rfl⟩
    cases hfind : findOpeningCommentBefore d (s.off - 1) with
    | none =>
      simp only [hfind, Option.getD_none, hstart, offsetAt_zero]
      omega
    | some i =>
      simp only [hfind, Option.getD_some]
      have hb := lastIdx2_bound _ _ _ _ hfind
      have hlen : (List.take (s.off - 1) (docText d.lines)).length ≤ s.off - 1 := by
        rw [List.length_take]
        omega
      omega
  · exact ⟨Nat.le_refl _, rfl, rfl, rfl, rfl⟩
  · exact ⟨Nat.le_refl _, rfl, rfl, rfl, rfl⟩

theorem positionAt_single (lang : String) (l : Line) (o : Nat) :
    positionAt ⟨lang, [l]⟩ o = ⟨0, min o l.length⟩ := rfl

theorem docCharAt_single (l : Line) (o : Nat) : docCharAt [l] o = l.get? o := rfl

/-- On a single-line document with no braces, one backward iteration
strictly decreases the offset and preserves the line tracker and the
default start boundary. -/
theorem bwdIter_lt_single (lang : String) (l : Line) (isCSS : Bool) (cursor limitPos : Pos)
    (hbr : ∀ c ∈ l, c ≠ '{' ∧ c ≠ '}') (s : BwdState)
    (hcl : s.currentLine = 0) (hstart : s.startPosition = ⟨0, 0⟩) (hoff : 1 ≤ s.off) :
    (bwdIter ⟨lang, [l]⟩ isCSS cursor limitPos s).off < s.off ∧
    (bwdIter ⟨lang, [l]⟩ isCSS cursor limitPos s).currentLine = 0 ∧
    (bwdIter ⟨lang, [l]⟩ isCSS cursor limitPos s).startPosition = ⟨0, 0⟩ := by
  have hnoop : consumeLineCommentBackwards ⟨lang, [l]⟩ isCSS s = s :=
    consumeLineCommentBackwards_noop (by rw [positionAt_single, hcl])
  have hcheck := bwdCheckLimit_off ⟨lang, [l]⟩ cursor limitPos (bwdSwitchStep ⟨lang, [l]⟩ isCSS s)
  have hsw : (bwdSwitchStep ⟨lang, [l]⟩ isCSS s).off < s.off ∧
      (bwdSwitchStep ⟨lang, [l]⟩ isCSS s).currentLine = 0 ∧
      (bwdSwitchStep ⟨lang, [l]⟩ isCSS s).startPosition = ⟨0, 0⟩ := by
    unfold bwdSwitchStep
    rw [hnoop]
    cases hch : docCharAt [l] (s.off - 1) with
    | none =>
      simp only [hch]
      simp only [show ((none : Option Char) = some '{') = False by simp,
        show ((none : Option Char) = some '}') = False by simp,
        show ((none : Option Char) = some '/') = False by simp, if_false]
      exact ⟨by omega, hcl, hstart⟩
    | some c =>
      have hc : c ∈ l := List.get?_mem (docCharAt_single l (s.off - 1) ▸ hch)
      have hc1 : ¬(some c = some '{') := by
        intro hx
        injection hx with hx
        exact (hbr c hc).1 hx
      have hc2 : ¬(some c = some '}') := by
        intro hx
        injection hx with hx
        exact (hbr c hc).2 hx
      simp only [hch, if_neg hc1, if_neg hc2]
      split_ifs with h3
      · have hb := consumeBlockCommentBackwards_le ⟨lang, [l]⟩
          { s with off := s.off - 1 } hstart
        have hb1 := hb.1
        have hb2 := hb.2.1
        have hb3 := hb.2.2.1
        simp only at hb1 hb2 hb3
        refine ⟨by omega, by rw [hb2]; exact hcl, by rw [hb3]; exact hstart⟩
      · refine ⟨?_, hcl, hstart⟩
        show s.off - 1 < s.off
        omega
  unfold bwdIter
  exact ⟨hcheck.1 ▸ hsw.1, hcheck.2.2.2 ▸ hsw.2.1, hcheck.2.2.1 ▸ hsw.2.2⟩

/-- Any backward iteration whose final offset sits at or below the
character limit, or more than 100 lines above the cursor, ends with the
exit flag set (the limit check runs after every iteration). -/
theorem bwdIter_abort (d : TextDocument) (isCSS : Bool) (cursor limitPos : Pos) (s : BwdState)
    (h : ((cursor.line : Int) -
        ((positionAt d (bwdIter d isCSS cursor limitPos s).off).line : Int) > 100)
      ∨ (positionAt d (bwdIter d isCSS cursor limitPos s).off).isBeforeOrEqual limitPos = true) :
    (bwdIter d isCSS cursor limitPos s).exitFlag = true := by
  have hoff : (bwdIter d isCSS cursor limitPos s).off = (bwdSwitchStep d isCSS s).off :=
    (bwdCheckLimit_off d cursor limitPos _).1
  rw [hoff] at h
  unfold bwdIter bwdCheckLimit
  rw [if_pos h]

theorem bwdIter_limit_exit_single (lang : String) (l : Line) (isCSS : Bool) (cursor : Pos)
    (limitOff : Nat) (s : BwdState)
    (h : (bwdIter ⟨lang, [l]⟩ isCSS cursor ⟨0, limitOff⟩ s).off ≤ limitOff) :
    (bwdIter ⟨lang, [l]⟩ isCSS cursor ⟨0, limitOff⟩ s).exitFlag = true := by
  apply bwdIter_abort
  right
  rw [positionAt_single, Pos.isBeforeOrEqual_iff]
  right
  refine ⟨rfl, ?_⟩
  show min _ _ ≤ limitOff
  omega

/-- On a single-line brace-free document the backward loop reaches a
stopped state within `limitOff + fuel` whenever the offset starts below
that bound: offsets strictly decrease and the limit check fires as soon
as the offset reaches the limit. -/
theorem bwdLoop_term_single (lang : String) (l : Line) (isCSS : Bool) (cursor : Pos)
    (limitOff : Nat) (hbr : ∀ c ∈ l, c ≠ '{' ∧ c ≠ '}') :
    ∀ (fuel : Nat) (s : BwdState), s.currentLine = 0 → s.startPosition = ⟨0, 0⟩ →
      s.off < limitOff + fuel → (limitOff < s.off ∨ bwdStop s) →
      bwdStop (bwdLoop ⟨lang, [l]⟩ isCSS cursor ⟨0, limitOff⟩ fuel s) := by
  intro fuel
  induction fuel with
  | zero =>
    intro s _ _ hbound hdisj
    rcases hdisj with h | h
    · omega
    · exact h
  | succ fuel ih =>
    intro s hcl hstart hbound hdisj
    unfold bwdLoop
    split_ifs with hstop
    · exact hstop
    · have hoff1 : 1 ≤ s.off := by
        unfold bwdStop at hstop
        push_neg at hstop
        omega
      have hlt := bwdIter_lt_single lang l isCSS cursor ⟨0, limitOff⟩ hbr s hcl hstart hoff1
      apply ih _ hlt.2.1 hlt.2.2
      · omega
      · by_cases hle : (bwdIter ⟨lang, [l]⟩ isCSS cursor ⟨0, limitOff⟩ s).off ≤ limitOff
        · exact Or.inr (Or.inl (bwdIter_limit_exit_single lang l isCSS cursor limitOff s hle))
        · exact Or.inl (by omega)

theorem limitPositionOf_single (lang : String) (l : Line) (cursor : Pos)
    (hline : cursor.line = 0) :
    limitPositionOf ⟨lang, [l]⟩ cursor = ⟨0, min cursor.character l.length - 5000⟩ := by
  rcases cursor with ⟨cl, cc⟩
  simp only at hline
  subst hline
  unfold limitPositionOf offsetAt
  show (if (((offsetAtAux [l] 0 cc : Nat) : Int) - 5000) > 0 then
      positionAt ⟨lang, [l]⟩ ((((offsetAtAux [l] 0 cc : Nat) : Int) - 5000)).toNat
    else ⟨0, 0⟩) = ⟨0, min cc l.length - 5000⟩
  have hx : offsetAtAux [l] 0 cc = min cc l.length := rfl
  rw [hx]
  split_ifs with h
  · rw [positionAt_single]
    have h1 : ((((min cc l.length : Nat)) : Int) - 5000).toNat = min cc l.length - 5000 := by
      omega
    rw [h1]
    have h2 : min (min cc l.length - 5000) l.length = min cc l.length - 5000 := by omega
    rw [h2]
  · have h1 : min cc l.length - 5000 = 0 := by omega
    rw [h1]

/-- C5 (amended): the backward scan's limit check runs after every
iteration and sets the exit flag as soon as an iteration ends more than
100 lines above the cursor's line or at/before the limit position (5000
characters before the cursor); an exited state ends the loop
immediately; on a brace-free single-line document the loop reaches a
stopped state within 5002 iterations, so it never walks more than about
5000 characters back from the cursor.  (On abort the start boundary is
left at its current value — the document start unless the
strict-dialect closing-brace rule already set it — not moved to the
scan's position; see the counterexample.) -/
theorem parsePartialStylesheet_backward_cutoff :
    (∀ (d : TextDocument) (isCSS : Bool) (cursor limitPos : Pos) (s : BwdState),
      (((cursor.line : Int) -
          ((positionAt d (bwdIter d isCSS cursor limitPos s).off).line : Int) > 100)
        ∨ (positionAt d (bwdIter d isCSS cursor limitPos s).off).isBeforeOrEqual limitPos
            = true) →
      (bwdIter d isCSS cursor limitPos s).exitFlag = true) ∧
    (∀ (d : TextDocument) (isCSS : Bool) (cursor limitPos : Pos) (fuel : Nat) (s : BwdState),
      s.exitFlag = true → bwdLoop d isCSS cursor limitPos fuel s = s) ∧
    (∀ (lang : String) (l : Line) (cursor : Pos), cursor.line = 0 →
      (∀ c ∈ l, c ≠ '{' ∧ c ≠ '}') →
      bwdStop (bwdLoop ⟨lang, [l]⟩ (lang == "css") cursor
        (limitPositionOf ⟨lang, [l]⟩ cursor) 5002
        { off := offsetAt ⟨lang, [l]⟩ cursor
          currentLine := cursor.line
          openBracesToFind := 1
          startPosition := ⟨0, 0⟩
          foundSelector := false
          exitFlag := false })) := by
  refine ⟨bwdIter_abort,
    fun d isCSS cursor limitPos fuel s h => bwdLoop_stop fuel s (Or.inl h), ?_⟩
  intro lang l cursor hline hbr
  rcases cursor with ⟨cl, cc⟩
  simp only at hline
  subst hline
  rw [limitPositionOf_single lang l ⟨0, cc⟩ rfl]
  have hoff : offsetAt ⟨lang, [l]⟩ ⟨0, cc⟩ = min cc l.length := rfl
  apply bwdLoop_term_single lang l (lang == "css") ⟨0, cc⟩ (min cc l.length - 5000) hbr 5002
  · rfl
  · rfl
  · show offsetAt ⟨lang, [l]⟩ ⟨0, cc⟩ < (min cc l.length - 5000) + 5002
    rw [hoff]
    omega
  · rcases Nat.eq_zero_or_pos (min cc l.length) with h0 | hpos
    · refine Or.inr (Or.inr (Or.inr ?_))
      show offsetAt ⟨lang, [l]⟩ ⟨0, cc⟩ = 0
      rw [hoff, h0]
    · refine Or.inl ?_
      show min cc l.length - 5000 < offsetAt ⟨lang, [l]⟩ ⟨0, cc⟩
      rw [hoff]
      omega

/-- The spec's synthetic single-line document: 10,000 characters, no
braces. -/
def wline5 : Line := List.replicate 10000 'a'

/-- Witness for C5 at the spec's 10,000-character brace-free single-line
document with the cursor at its end. -/
theorem parsePartialStylesheet_backward_cutoff_witness :
    bwdStop (bwdLoop ⟨"css", [wline5]⟩ ("css" == "css") ⟨0, 10000⟩
      (limitPositionOf ⟨"css", [wline5]⟩ ⟨0, 10000⟩) 5002
      { off := offsetAt ⟨"css", [wline5]⟩ ⟨0, 10000⟩
        currentLine := 0
        openBracesToFind := 1
        startPosition := ⟨0, 0⟩
        foundSelector := false
        exitFlag := false }) :=
  parsePartialStylesheet_backward_cutoff.2.2 "css" wline5 ⟨0, 10000⟩ rfl
    (by
      intro c hc
      unfold wline5 at hc
      rw [List.mem_replicate] at hc
      rcases hc with ⟨-, h⟩
      subst h
      decide)

/-- The 151-line document (one `a` per line) for the C5 counterexample,
and the initial backward-scan state of parsePartialStylesheet on it with
the cursor at the end of the last line (offset 301). -/
def wdoc5 : TextDocument := ⟨"css", List.replicate 151 ['a']⟩

def wstate5 : BwdState :=
  { off := 301
    currentLine := 150
    openBracesToFind := 1
    startPosition := ⟨0, 0⟩
    foundSelector := false
    exitFlag := false }

set_option maxRecDepth 100000 in
/-- C5 counterexample: on 151 one-character lines with the cursor at the
end, the backward scan aborts through the 100-line limit with the
stream at position (49,1), yet the start boundary parsePartialStylesheet
uses is the untouched default (0,0), the document start — the abort does
not set the boundary to the scan's current position as claimed. -/
theorem parsePartialStylesheet_abort_keeps_default_start :
    (bwdLoop wdoc5 true ⟨150, 1⟩ (limitPositionOf wdoc5 ⟨150, 1⟩) 755 wstate5).exitFlag
        = true ∧
    positionAt wdoc5
        (bwdLoop wdoc5 true ⟨150, 1⟩ (limitPositionOf wdoc5 ⟨150, 1⟩) 755 wstate5).off
      = ⟨49, 1⟩ ∧
    (parsePartialStylesheetRange wdoc5 ⟨150, 1⟩).1 = ⟨0, 0⟩ ∧
    ((⟨0, 0⟩ : Pos) ≠ ⟨49, 1⟩) := by
  decide

theorem docText_length : ∀ (ls : List Line), (docText ls).length = docLength ls
  | [] => rfl
  | [l] => rfl
  | l :: l2 :: ls => by
    unfold docText docLength
    rw [List.length_append, List.length_cons, docText_length (l2 :: ls)]
    omega

theorem docCharAt_some_lt : ∀ (ls : List Line) (o : Nat) (c : Char),
    docCharAt ls o = some c → o < docLength ls
  | [], o, c => by simp [docCharAt]
  | [l], o, c => by
    intro h
    show o < l.length
    exact List.get?_eq_some.mp h |>.choose
  | l :: l2 :: ls, o, c => by
    intro h
    unfold docCharAt at h
    split_ifs at h with h1 h2
    · show o < l.length + 1 + docLength (l2 :: ls)
      omega
    · show o < l.length + 1 + docLength (l2 :: ls)
      omega
    · have := docCharAt_some_lt (l2 :: ls) (o - l.length - 1) c h
      show o < l.length + 1 + docLength (l2 :: ls)
      omega

theorem offsetAtAux_le : ∀ (ls : List Line) (ln c : Nat), offsetAtAux ls ln c ≤ docLength ls
  | [], _, _ => Nat.le_refl 0
  | [l], 0, c => by
    show min c l.length ≤ l.length
    omega
  | [l], _ + 1, _ => Nat.le_refl _
  | l :: l2 :: ls, 0, c => by
    show min c l.length ≤ l.length + 1 + docLength (l2 :: ls)
    omega
  | l :: l2 :: ls, ln + 1, c => by
    show l.length + 1 + offsetAtAux (l2 :: ls) ln c ≤ l.length + 1 + docLength (l2 :: ls)
    have := offsetAtAux_le (l2 :: ls) ln c
    omega

theorem positionAtAux_line_shift : ∀ (ls : List Line) (ln o : Nat),
    (positionAtAux ls (ln + 1) o).line = (positionAtAux ls ln o).line + 1
  | [], _, _ => rfl
  | [_], _, _ => rfl
  | l :: l2 :: ls, ln, o => by
    unfold positionAtAux
    split_ifs
    · rfl
    · exact positionAtAux_line_shift (l2 :: ls) (ln + 1) (o - l.length - 1)

/-- The start of the line after the line of offset `x` is not before
`x` (with clamping at the end of the document). -/
theorem nextLineStart_ge : ∀ (ls : List Line) (x : Nat), x ≤ docLength ls →
    x ≤ offsetAtAux ls ((positionAtAux ls 0 x).line + 1) 0
  | [], x, h => by
    simp only [docLength, Nat.le_zero] at h
    subst h
    exact Nat.le_refl 0
  | [l], x, h => by
    show x ≤ l.length
    exact h
  | l :: l2 :: ls, x, h => by
    have hunf : positionAtAux (l :: l2 :: ls) 0 x =
        if x ≤ l.length then ⟨0, x⟩
        else positionAtAux (l2 :: ls) (0 + 1) (x - l.length - 1) := rfl
    by_cases hx : x ≤ l.length
    · have hline : positionAtAux (l :: l2 :: ls) 0 x = ⟨0, x⟩ := by
        rw [hunf, if_pos hx]
      rw [hline]
      show x ≤ l.length + 1 + offsetAtAux (l2 :: ls) 0 0
      omega
    · have hline : positionAtAux (l :: l2 :: ls) 0 x =
          positionAtAux (l2 :: ls) 1 (x - l.length - 1) := by
        rw [hunf, if_neg hx]
      rw [hline, positionAtAux_line_shift]
      show x ≤ l.length + 1 +
        offsetAtAux (l2 :: ls) ((positionAtAux (l2 :: ls) 0 (x - l.length - 1)).line + 1) 0
      have hrec := nextLineStart_ge (l2 :: ls) (x - l.length - 1) (by
        show x - l.length - 1 ≤ docLength (l2 :: ls)
        have : docLength (l :: l2 :: ls) = l.length + 1 + docLength (l2 :: ls) := rfl
        omega)
      omega

theorem findClosingCommentAfter_bounds (d : TextDocument) (o r : Nat)
    (h : findClosingCommentAfter d o = some r) :
    o + 2 ≤ r ∧ r ≤ docLength d.lines := by
  unfold findClosingCommentAfter at h
  simp only [Option.map_eq_some'] at h
  obtain ⟨i, hi, hr⟩ := h
  have hb := firstIdx2_bound _ _ _ _ hi
  rw [List.length_drop, docText_length] at hb
  omega

/-- With the stream peeking a slash, `consumeCommentForwards` strictly
advances the offset and stays within the document. -/
theorem consumeCommentForwards_progress (d : TextDocument) (isCSS : Bool) (off : Nat)
    (hch : docCharAt d.lines off = some '/') :
    off < consumeCommentForwards d isCSS (docLength d.lines) off ∧
    consumeCommentForwards d isCSS (docLength d.lines) off ≤ docLength d.lines := by
  have hlt : off < docLength d.lines := docCharAt_some_lt _ _ _ hch
  unfold consumeCommentForwards
  rw [if_pos hch]
  split_ifs with h1 h2 h3 h4
  · -- line comment outside strict css: skip to the start of the next line
    have hlt2 : off + 1 < docLength d.lines := docCharAt_some_lt _ _ _ h1
    have hge := nextLineStart_ge d.lines (off + 2) (by omega)
    have hle := offsetAtAux_le d.lines ((positionAtAux d.lines 0 (off + 2)).line + 1) 0
    have hnls : nextLineStart d (off + 2) =
        offsetAtAux d.lines ((positionAtAux d.lines 0 (off + 2)).line + 1) 0 := rfl
    rw [hnls]
    constructor <;> omega
  · cases hf : findClosingCommentAfter d (off + 3) with
    | none =>
      simp only [hf, Option.getD_none]
      omega
    | some r =>
      simp only [hf, Option.getD_some]
      have := findClosingCommentAfter_bounds d (off + 3) r hf
      omega
  · have hlt2 : off + 1 < docLength d.lines := docCharAt_some_lt _ _ _ h1
    omega
  · cases hf : findClosingCommentAfter d (off + 2) with
    | none =>
      simp only [hf, Option.getD_none]
      omega
    | some r =>
      simp only [hf, Option.getD_some]
      have := findClosingCommentAfter_bounds d (off + 2) r hf
      omega
  · omega

/-- The first closing brace at or after `off` (fueled linear search). -/
def firstBraceFrom (d : TextDocument) : Nat → Nat → Option Nat
  | 0, _ => none
  | fuel + 1, off =>
    if docLength d.lines ≤ off then none
    else if docCharAt d.lines off = some '}' then some off
    else firstBraceFrom d fuel (off + 1)

theorem fwdLoop_result (d : TextDocument) (isCSS : Bool) :
    ∀ (fuel off : Nat), off ≤ docLength d.lines → docLength d.lines - off < fuel →
      (fwdLoop d isCSS fuel off = docLength d.lines ∨
        (1 ≤ fwdLoop d isCSS fuel off ∧ fwdLoop d isCSS fuel off ≤ docLength d.lines ∧
          docCharAt d.lines (fwdLoop d isCSS fuel off - 1) = some '}')) := by
  intro fuel
  induction fuel with
  | zero =>
    intro off _ hf
    omega
  | succ fuel ih =>
    intro off hoff hf
    unfold fwdLoop
    split_ifs with h1 h2 h3
    · left
      omega
    · right
      refine ⟨by omega, by omega, ?_⟩
      simpa using h2
    · have hp := consumeCommentForwards_progress d isCSS off h3
      exact ih _ hp.2 (by omega)
    · have : off < docLength d.lines := by omega
      exact ih (off + 1) (by omega) (by omega)

theorem fwdLoop_no_brace (d : TextDocument) (isCSS : Bool) (c : Nat)
    (hbr : ∀ i, c ≤ i → docCharAt d.lines i ≠ some '}') :
    ∀ (fuel off : Nat), c ≤ off → off ≤ docLength d.lines →
      docLength d.lines - off < fuel → fwdLoop d isCSS fuel off = docLength d.lines := by
  intro fuel
  induction fuel with
  | zero =>
    intro off _ _ hf
    omega
  | succ fuel ih =>
    intro off hc hoff hf
    unfold fwdLoop
    split_ifs with h1 h2 h3
    · omega
    · exact absurd h2 (hbr off hc)
    · have hp := consumeCommentForwards_progress d isCSS off h3
      exact ih _ (by omega) hp.2 (by omega)
    · exact ih (off + 1) (by omega) (by omega) (by omega)

theorem fwdLoop_comment_free (d : TextDocument) (isCSS : Bool) (c : Nat)
    (hsl : ∀ i, c ≤ i → docCharAt d.lines i ≠ some '/') :
    ∀ (fuel off : Nat), c ≤ off → off ≤ docLength d.lines →
      docLength d.lines - off < fuel →
      fwdLoop d isCSS fuel off =
        (match firstBraceFrom d fuel off with
          | some j => j + 1
          | none => docLength d.lines) := by
  intro fuel
  induction fuel with
  | zero =>
    intro off _ _ hf
    omega
  | succ fuel ih =>
    intro off hc hoff hf
    unfold fwdLoop firstBraceFrom
    split_ifs with h1 h2 h3
    · show off = docLength d.lines
      omega
    · rfl
    · exact absurd h3 (hsl off hc)
    · exact ih (off + 1) (by omega) (by omega) (by omega)

theorem firstBraceFrom_le (d : TextDocument) :
    ∀ (fuel off j : Nat), firstBraceFrom d fuel off = some j →
      off ≤ j ∧ j < docLength d.lines := by
  intro fuel
  induction fuel with
  | zero =>
    intro off j h
    cases h
  | succ fuel ih =>
    intro off j h
    unfold firstBraceFrom at h
    split_ifs at h with h1 h2
    · cases h
      omega
    · have := ih (off + 1) j h
      omega

/-- Document `(brace x brace) space y` for the C4 counterexample. -/
def wdoc4 : TextDocument := ⟨"css", [['{', 'x', '}', ' ', 'y']]⟩

/-- C4 counterexample: in the document `(open)x(close) y` with the
cursor at offset 0, the forward scan consumes the opening brace at
offset 0 and still stops at the closing brace at offset 2 — a brace
that is matched by an opening brace inside the scanned range, not an
unmatched one — placing the end boundary at offset 3 instead of the
end-of-document default 5 that the claim's "unmatched" reading
requires. -/
theorem forwardScan_stops_at_matched_brace :
    forwardEndOffset wdoc4 0 = 3 ∧
    docCharAt wdoc4.lines 0 = some '{' ∧
    docCharAt wdoc4.lines 2 = some '}' ∧
    docLength wdoc4.lines = 5 ∧ (3 : Nat) ≠ 5 := by
  decide

/-- Documents demonstrating comment skipping in the forward scan: a
line comment hiding a closing brace in a non-css dialect, and a block
comment hiding one in css. -/
def wdoc4line : TextDocument := ⟨"scss", [['a', '/', '/', ' ', '}'], ['b', '}']]⟩

def wdoc4block : TextDocument := ⟨"css", [['a', '/', '*', ' ', '}', ' ', '*', '/', ' ', 'b', ' ', '}', ' ', 'c']]⟩

/-- C4 (amended): the forward scan of parsePartialStylesheet advances
from the cursor, skipping line comments (non-css dialects only) and
block comments, and stops at the first closing brace encountered
outside comments — whether or not it is matched — setting the end
boundary to the position just past that brace; if no closing brace is
found before the end of the document, the end boundary defaults to the
end of the document.  Stated as: (1) the end boundary is the document
end or sits just past a closing brace; (2) with no closing brace at or
after the cursor the boundary is the document end; (3) in slash-free
text the boundary is exactly one past the first closing brace at or
after the cursor, or the document end when there is none; (4) concrete
comment-skipping runs: a brace inside a `//` line comment (scss) and
inside a block comment (css) is skipped, the scan stopping at the next
real brace. -/
theorem parsePartialStylesheet_forward_scan :
    (∀ (d : TextDocument) (c : Nat),
      forwardEndOffset d c = docLength d.lines ∨
        (1 ≤ forwardEndOffset d c ∧
          docCharAt d.lines (forwardEndOffset d c - 1) = some '}')) ∧
    (∀ (d : TextDocument) (c : Nat),
      (∀ i, c ≤ i → docCharAt d.lines i ≠ some '}') →
      forwardEndOffset d c = docLength d.lines) ∧
    (∀ (d : TextDocument) (c : Nat),
      (∀ i, c ≤ i → docCharAt d.lines i ≠ some '/') →
      forwardEndOffset d c =
        (match firstBraceFrom d (docLength d.lines + 1) c with
          | some j => j + 1
          | none => docLength d.lines)) ∧
    (forwardEndOffset wdoc4line 1 = 8 ∧ forwardEndOffset wdoc4block 0 = 12) := by
  have hcore : ∀ (d : TextDocument) (c : Nat), docLength d.lines < c →
      forwardEndOffset d c = docLength d.lines := by
    intro d c hc
    unfold forwardEndOffset fwdLoop
    rw [if_pos (by omega : docLength d.lines ≤ c), if_neg (by omega : ¬ c < docLength d.lines)]
  refine ⟨?_, ?_, ?_, by decide, by decide⟩
  · intro d c
    by_cases hc : c ≤ docLength d.lines
    · have h := fwdLoop_result d (d.languageId == "css") (docLength d.lines + 1) c hc
        (by omega)
      simp only [forwardEndOffset]
      rcases h with h | ⟨h1, h2, h3⟩
      · rw [h]
        left
        rw [if_neg (by omega)]
      · split_ifs with h4
        · right
          exact ⟨h1, h3⟩
        · left
          rfl
    · exact Or.inl (hcore d c (by omega))
  · intro d c hbr
    by_cases hc : c ≤ docLength d.lines
    · have h := fwdLoop_no_brace d (d.languageId == "css") c hbr (docLength d.lines + 1) c
        (Nat.le_refl c) hc (by omega)
      simp only [forwardEndOffset]
      rw [h, if_neg (by omega)]
    · exact hcore d c (by omega)
  · intro d c hsl
    by_cases hc : c ≤ docLength d.lines
    · have h := fwdLoop_comment_free d (d.languageId == "css") c hsl (docLength d.lines + 1) c
        (Nat.le_refl c) hc (by omega)
      simp only [forwardEndOffset]
      rw [h]
      cases hfb : firstBraceFrom d (docLength d.lines + 1) c with
      | none =>
        show (if docLength d.lines < docLength d.lines then docLength d.lines
          else docLength d.lines) = docLength d.lines
        split_ifs <;> rfl
      | some j =>
        have hj := firstBraceFrom_le d (docLength d.lines + 1) c j hfb
        show (if j + 1 < docLength d.lines then j + 1 else docLength d.lines) = j + 1
        split_ifs with h4
        · rfl
        · omega
    · rw [hcore d c (by omega)]
      cases hfb : firstBraceFrom d (docLength d.lines + 1) c with
      | none => rfl
      | some j =>
        have := firstBraceFrom_le d (docLength d.lines + 1) c j hfb
        exfalso
        omega

/-- Witness for C4: the no-brace and comment-free conjuncts at concrete
documents (`ab` with no brace; `a(close)b` with the brace at offset 1),
with every hypothesis discharged. -/
theorem parsePartialStylesheet_forward_scan_witness :
    forwardEndOffset ⟨"css", [['a', 'b']]⟩ 0 = docLength [['a', 'b']] ∧
    forwardEndOffset ⟨"css", [['a', '}', 'b']]⟩ 0 =
      (match firstBraceFrom ⟨"css", [['a', '}', 'b']]⟩ (docLength [['a', '}', 'b']] + 1) 0 with
        | some j => j + 1
        | none => docLength [['a', '}', 'b']]) :=
  ⟨parsePartialStylesheet_forward_scan.2.1 ⟨"css", [['a', 'b']]⟩ 0
      (by
        intro i _ hcontra
        have hlt := docCharAt_some_lt _ _ _ hcontra
        have h2 : docLength ([['a', 'b']] : List Line) = 2 := rfl
        rw [h2] at hlt
        interval_cases i <;> exact absurd hcontra (by decide)),
    parsePartialStylesheet_forward_scan.2.2.1 ⟨"css", [['a', '}', 'b']]⟩ 0
      (by
        intro i _ hcontra
        have hlt := docCharAt_some_lt _ _ _ hcontra
        have h2 : docLength ([['a', '}', 'b']] : List Line) = 3 := rfl
        rw [h2] at hlt
        interval_cases i <;> exact absurd hcontra (by decide))⟩

/-- Soundness of the locator scan for any tree: a returned node that is
not the incoming accumulator contains the position and occurs in the
forest. -/
theorem getNodeList_sound : ∀ (l : List ENode) (p : Pos) (inc : Bool)
    (found : Option ENode) (n : ENode),
    getNodeList l p inc found = some n →
    found = some n ∨ (nodeContains n p inc = true ∧ ∃ d, MemDepth l n d)
  | [], p, inc, found, n => by
    rw [getNodeList_nil]
    exact fun h => Or.inl h
  | m :: rest, p, inc, found, n => by
    intro h
    cases hcont : nodeContains m p inc with
    | true =>
      rw [getNodeList_cons_pos rest found hcont] at h
      rcases getNodeList_sound m.children p inc (some m) n h with h1 | ⟨h1, d, hd⟩
      · injection h1 with h1
        subst h1
        exact Or.inr ⟨hcont, 0, .top (List.mem_cons_self _ _)⟩
      · exact Or.inr ⟨h1, d + 1, .child (List.mem_cons_self _ _) hd⟩
    | false =>
      rw [getNodeList_cons_neg rest found hcont] at h
      rcases getNodeList_sound rest p inc found n h with h1 | ⟨h1, d, hd⟩
      · exact Or.inl h1
      · exact Or.inr ⟨h1, d, memDepth_cons hd⟩
termination_by l _ _ _ _ => sizeOf l
decreasing_by
  all_goals first
    | exact sizeOf_children_lt m _
    | exact sizeOf_rest_lt m rest

/-- The template MIME-type allow-list of util.ts. -/
def allowedMimeTypesInScriptTag : List String :=
  ["text/html", "text/plain", "text/x-template", "text/template", "text/ng-template"]

/-- `isStyleSheet` from util.ts. -/
def isStyleSheet (languageId : String) : Bool :=
  (["css", "scss", "sass", "less", "stylus"] : List String).contains languageId

/-- `parseDocument` from util.ts: the dialect-appropriate external parse
(passed as an `Except` value) is wrapped in try/catch; a thrown failure
becomes `undefined`. -/
def parseDocument (parseContent : Except Unit ENode) : Option ENode :=
  match parseContent with
  | .ok root => some root
  | .error _ => none

/-- The template-script test of `getHtmlNode`: a `script` tag with a
`type` attribute whose value is in the MIME allow-list. -/
def isTemplateScript (n : ENode) : Bool :=
  n.name == "script" &&
    n.attributes.any (fun x => x.1 == "type" && allowedMimeTypesInScriptTag.contains x.2)

/-- `getHtmlNode` from util.ts (Variant A): locate via `getNode`; for a
template script tag with a close range and the position strictly inside
the body, re-parse the body range (external parse passed as
`innerParse`, applied to open-end and close-start) and return an inner
match in place of the outer node; on no inner match or a thrown inner
parse, return the outer node. -/
def getHtmlNode (root : Option ENode) (position : Pos) (includeNodeBoundary : Bool)
    (innerParse : Pos → Pos → Except Unit ENode) : Option ENode :=
  match getNode root position includeNodeBoundary with
  | none => none
  | some currentNode =>
    if isTemplateScript currentNode then
      match currentNode.closeStart with
      | some cs =>
        if position.isAfter currentNode.openEnd && position.isBefore cs then
          match innerParse currentNode.openEnd cs with
          | .ok scriptInnerNodes =>
            some ((getNode (some scriptInnerNodes) position includeNodeBoundary).getD
              currentNode)
          | .error _ => some currentNode
        else some currentNode
      | none => some currentNode
    else some currentNode

/-- `getCssPropertyFromDocument` from util.ts: the document parse goes
through `parseDocument` (caught), but in the embedded-`style`-tag branch
the stylesheet parse of the node's range is invoked directly, so a
thrown failure propagates (`Except.error`).  Accessing `close.start` of
a close-less node likewise throws. -/
def getCssPropertyFromDocument (languageId : String) (docParse : Except Unit ENode)
    (innerParse : Pos → Pos → Except Unit ENode) (position : Pos) :
    Except Unit (Option ENode) :=
  let rootNode := parseDocument docParse
  let node := getNode rootNode position true
  if isStyleSheet languageId then
    .ok (match node with
      | some n => if n.type_ == "property" then some n else none
      | none => none)
  else
    match node with
    | some htmlNode =>
      if htmlNode.name == "style" then
        if htmlNode.openEnd.isBefore position then
          match htmlNode.closeStart with
          | some cs =>
            if cs.isAfter position then
              match innerParse htmlNode.start htmlNode.stop with
              | .ok root =>
                .ok (match getNode (some root) position true with
                  | some n => if n.type_ == "property" then some n else none
                  | none => none)
              | .error e => .error e
            else .ok none
          | none => .error ()
        else .ok none
      else .ok none
    | none => .ok none

/-- `parsePartialStylesheet`'s final step: the external stylesheet parse
of the computed boundary range, with a thrown failure caught as
`undefined`. -/
def parsePartialStylesheetResult (d : TextDocument) (position : Pos)
    (parseFn : Pos × Pos → Except Unit ENode) : Option ENode :=
  match parseFn (parsePartialStylesheetRange d position) with
  | .ok t => some t
  | .error _ => none

/-- The style-tag document tree for the C7 counterexample: a root whose
only child is a `style` tag spanning [0,30] with open end at 7 and
close start at 22. -/
def wstyleNode : ENode := ENode.mk "tag" "style" ⟨0, 0⟩ ⟨0, 30⟩ ⟨0, 7⟩ (some ⟨0, 22⟩) [] []

def wroot7 : ENode := ENode.mk "root" "" ⟨0, 0⟩ ⟨0, 40⟩ ⟨0, 0⟩ none [] [wstyleNode]

theorem getNode_wroot7 (p : Pos) (h : nodeContains wstyleNode p true = true) :
    getNode (some wroot7) p true = some wstyleNode := by
  show getNodeList [wstyleNode] p true none = some wstyleNode
  rw [getNodeList_cons_pos _ _ h, show wstyleNode.children = ([] : List ENode) from rfl,
    getNodeList_nil]

/-- C7 counterexample: with the cursor inside the `style` tag's body and
the embedded stylesheet parse throwing, `getCssPropertyFromDocument`
propagates the exception to its caller instead of returning "no tree":
its inner `parseStylesheet` call has no try/catch. -/
theorem getCssPropertyFromDocument_propagates :
    getCssPropertyFromDocument "html" (Except.ok wroot7) (fun _ _ => Except.error ())
      ⟨0, 10⟩ = Except.error () := by
  have hn : getNode (parseDocument (Except.ok wroot7)) ⟨0, 10⟩ true = some wstyleNode :=
    getNode_wroot7 ⟨0, 10⟩ (by decide)
  simp only [getCssPropertyFromDocument]
  rw [hn]
  rfl

/-- C7 (amended): `parseDocument`, `getHtmlNode` and
`parsePartialStylesheet` catch a thrown parse and return "no tree" (or
fall back to the outer node), but `getCssPropertyFromDocument`'s
embedded-stylesheet parse is not wrapped in try/catch: in the
style-tag branch a thrown parse propagates to the caller. -/
theorem parse_failure_handling :
    (∀ (e : Unit), parseDocument (Except.error e) = none) ∧
    (∀ (t : ENode), parseDocument (Except.ok t) = some t) ∧
    (∀ (root : Option ENode) (p : Pos) (inc : Bool)
      (ip : Pos → Pos → Except Unit ENode),
      (∀ a b, ip a b = Except.error ()) →
      getHtmlNode root p inc ip = getNode root p inc) ∧
    (∀ (d : TextDocument) (pos : Pos) (pf : Pos × Pos → Except Unit ENode),
      pf (parsePartialStylesheetRange d pos) = Except.error () →
      parsePartialStylesheetResult d pos pf = none) ∧
    (∀ (languageId : String) (docParse : Except Unit ENode)
      (ip : Pos → Pos → Except Unit ENode) (pos : Pos) (htmlNode : ENode) (cs : Pos),
      isStyleSheet languageId = false →
      getNode (parseDocument docParse) pos true = some htmlNode →
      htmlNode.name = "style" →
      htmlNode.openEnd.isBefore pos = true →
      htmlNode.closeStart = some cs →
      cs.isAfter pos = true →
      ip htmlNode.start htmlNode.stop = Except.error () →
      getCssPropertyFromDocument languageId docParse ip pos = Except.error ()) := by
  refine ⟨fun e => rfl, fun t => rfl, ?_, ?_, ?_⟩
  · intro root p inc ip hip
    unfold getHtmlNode
    cases hg : getNode root p inc with
    | none => rfl
    | some cn =>
      dsimp only
      split_ifs with h1
      · cases hcs : cn.closeStart with
        | none => rfl
        | some cs =>
          dsimp only
          split_ifs with h2
          · rw [hip]
          · rfl
      · rfl
  · intro d pos pf hpf
    unfold parsePartialStylesheetResult
    rw [hpf]
  · intro languageId docParse ip pos htmlNode cs hsty hn hname hopen hcs hafter hip
    simp only [getCssPropertyFromDocument]
    rw [hn]
    rw [if_neg (show ¬ isStyleSheet languageId = true by rw [hsty]; simp)]
    dsimp only
    rw [if_pos (show (htmlNode.name == "style") = true by simp [hname]),
      if_pos hopen, hcs]
    dsimp only
    rw [if_pos hafter, hip]

/-- Witness for C7 at the concrete style-tag tree: the non-stylesheet
dialect, a successful document parse, and a failing embedded parse. -/
theorem parse_failure_handling_witness :
    getCssPropertyFromDocument "html" (Except.ok wroot7) (fun _ _ => Except.error ())
        ⟨0, 12⟩ = Except.error () ∧
    getHtmlNode (some wroot7) ⟨0, 12⟩ true (fun _ _ => Except.error ())
        = getNode (some wroot7) ⟨0, 12⟩ true :=
  ⟨parse_failure_handling.2.2.2.2 "html" (Except.ok wroot7) (fun _ _ => Except.error ())
      ⟨0, 12⟩ wstyleNode ⟨0, 22⟩ (by decide)
      (getNode_wroot7 ⟨0, 12⟩ (by decide)) (by rfl) (by decide) (by rfl)
      (by decide) (by rfl),
    parse_failure_handling.2.2.1 (some wroot7) ⟨0, 12⟩ true (fun _ _ => Except.error ())
      (fun a b => rfl)⟩

/-- C8: for a located template script node (allow-listed `type`
attribute) with the position strictly between open-end and close-start,
`getHtmlNode` re-parses the body as markup: an inner node located in the
re-parsed tree — which then contains the position — supersedes the
outer node; with no inner match, or a throwing inner parse, the outer
script node is returned. -/
theorem getHtmlNode_template_resolution (root : Option ENode) (p : Pos) (inc : Bool)
    (innerParse : Pos → Pos → Except Unit ENode) (cn : ENode) (cs : Pos)
    (hn : getNode root p inc = some cn)
    (hts : isTemplateScript cn = true)
    (hcs : cn.closeStart = some cs)
    (hpos : (p.isAfter cn.openEnd && p.isBefore cs) = true) :
    (∀ (t n : ENode), innerParse cn.openEnd cs = Except.ok t →
      getNode (some t) p inc = some n →
      getHtmlNode root p inc innerParse = some n ∧ nodeContains n p inc = true) ∧
    (∀ (t : ENode), innerParse cn.openEnd cs = Except.ok t →
      getNode (some t) p inc = none →
      getHtmlNode root p inc innerParse = some cn) ∧
    (innerParse cn.openEnd cs = Except.error () →
      getHtmlNode root p inc innerParse = some cn) := by
  have hbase : getHtmlNode root p inc innerParse =
      match innerParse cn.openEnd cs with
      | .ok scriptInnerNodes =>
        some ((getNode (some scriptInnerNodes) p inc).getD cn)
      | .error _ => some cn := by
    unfold getHtmlNode
    rw [hn]
    dsimp only
    rw [if_pos hts, hcs]
    dsimp only
    rw [if_pos hpos]
  refine ⟨?_, ?_, ?_⟩
  · intro t n hok hinner
    rw [hbase, hok]
    constructor
    · simp only [hinner, Option.getD_some]
    · have := getNodeList_sound t.children p inc none n hinner
      rcases this with h | ⟨h, -⟩
      · cases h
      · exact h
  · intro t hok hinner
    rw [hbase, hok]
    simp only [hinner, Option.getD_none]
  · intro herr
    rw [hbase, herr]

/-- The concrete script tree for the C8 witness: a root whose child is
`script type="text/ng-template"` spanning [0,60] with body (30,50), and
a re-parsed body tree containing a `div` spanning [32,45]. -/
def wscript8 : ENode :=
  ENode.mk "tag" "script" ⟨0, 0⟩ ⟨0, 60⟩ ⟨0, 30⟩ (some ⟨0, 50⟩)
    [("type", "text/ng-template")] []

def wroot8 : ENode := ENode.mk "root" "" ⟨0, 0⟩ ⟨0, 70⟩ ⟨0, 0⟩ none [] [wscript8]

def winner8 : ENode := ENode.mk "tag" "div" ⟨0, 32⟩ ⟨0, 45⟩ ⟨0, 37⟩ (some ⟨0, 39⟩) [] []

def winnerTree8 : ENode := ENode.mk "root" "" ⟨0, 30⟩ ⟨0, 50⟩ ⟨0, 30⟩ none [] [winner8]

theorem getNode_wroot8 :
    getNode (some wroot8) ⟨0, 40⟩ false = some wscript8 := by
  show getNodeList [wscript8] ⟨0, 40⟩ false none = some wscript8
  rw [getNodeList_cons_pos _ _ (by decide),
    show wscript8.children = ([] : List ENode) from rfl, getNodeList_nil]

theorem getNode_winnerTree8 :
    getNode (some winnerTree8) ⟨0, 40⟩ false = some winner8 := by
  show getNodeList [winner8] ⟨0, 40⟩ false none = some winner8
  rw [getNodeList_cons_pos _ _ (by decide),
    show winner8.children = ([] : List ENode) from rfl, getNodeList_nil]

/-- Witness for C8: the cursor at offset 40 inside the template body
resolves to the inner `div` of the re-parsed content, not the outer
script tag. -/
theorem getHtmlNode_template_resolution_witness :
    getHtmlNode (some wroot8) ⟨0, 40⟩ false (fun _ _ => Except.ok winnerTree8)
        = some winner8 ∧
    nodeContains winner8 ⟨0, 40⟩ false = true :=
  (getHtmlNode_template_resolution (some wroot8) ⟨0, 40⟩ false
      (fun _ _ => Except.ok winnerTree8) wscript8 ⟨0, 50⟩ getNode_wroot8 (by decide)
      (by rfl) (by decide)).1 winnerTree8 winner8 (by rfl) getNode_winnerTree8

/-- A node of the incremental language-service tree.  Nodes live in a
heap arena and refer to each other by index, mirroring the mutable
object references (`parent`, `children`) of the source. -/
structure LSNodeData where
  tag : Option String
  attributes : List (String × String)
  start : Nat
  nend : Nat
  startTagEnd : Option Nat
  endTagStart : Option Nat
  children : List Nat
  parent : Option Nat
deriving DecidableEq, Repr, Inhabited

/-- A language-service text document: uri, language identifier, version
and flat text. -/
structure LSDoc where
  uri : String
  languageId : String
  version : Nat
  text : List Char
deriving DecidableEq, Repr

/-- The shared mutable state: the heap of allocated nodes (ids are list
indices) and the process-wide single-entry parse cache mapping a
(uri, version) key to the root id of the cached tree. -/
structure LSState where
  heap : List LSNodeData
  cache : Option ((String × Nat) × Nat)
deriving DecidableEq, Repr

/-- The external collaborators of the incremental resolution: the
language-service parse (which may allocate nodes onto the heap,
returning the new heap and the root id) and its locator `findNodeAt`
(heap, root id, offset to node id). -/
structure LSOracles where
  parse : LSDoc → List LSNodeData → List LSNodeData × Nat
  findNodeAt : List LSNodeData → Nat → Nat → Nat

def heapGet (h : List LSNodeData) (i : Nat) : LSNodeData := h.getD i default

/-- Modelled from the spec: `parseMarkupDocument` (its source file is
not under src/) — a single-entry cache keyed by document uri and
version; with `useCache` true a matching entry returns the cached tree,
otherwise the document is parsed fresh and the entry replaced; with
`useCache` false the cache is neither read nor written. -/
def parseMarkupDocument (O : LSOracles) (doc : LSDoc) (useCache : Bool)
    (st : LSState) : LSState × Nat :=
  if useCache then
    match st.cache with
    | some (key, root) =>
      if key = (doc.uri, doc.version) then (st, root)
      else
        let pr := O.parse doc st.heap
        ({ heap := pr.1, cache := some ((doc.uri, doc.version), pr.2) }, pr.2)
    | none =>
      let pr := O.parse doc st.heap
      ({ heap := pr.1, cache := some ((doc.uri, doc.version), pr.2) }, pr.2)
  else
    let pr := O.parse doc st.heap
    ({ st with heap := pr.1 }, pr.2)

/-- JavaScript truthiness of an optional number (`0` is falsy). -/
def jsTruthy : Option Nat → Bool
  | some n => n != 0
  | none => false

/-- `scriptType.substring(1, scriptType.length - 1)`: strip the first
and last character (the quotes of the attribute value). -/
def stripFirstLast (s : String) : String :=
  ((s.toList.drop 1).dropLast).asString

/-- `isNodeTemplateScriptLS` from util.ts: a `script` node whose truthy
`type` attribute, with its first and last character stripped, is in the
MIME allow-list. -/
def isNodeTemplateScriptLS (n : LSNodeData) : Bool :=
  n.tag == some "script" &&
    (match n.attributes.lookup "type" with
      | some v => v != "" && allowedMimeTypesInScriptTag.contains (stripFirstLast v)
      | none => false)

/-- The template-recursion guard of `getHtmlNodeLSInternal`: template
script, truthy `startTagEnd`, offset strictly past it, and `endTagStart`
falsy or strictly past the offset. -/
def templateCondLS (n : LSNodeData) (offset : Nat) : Bool :=
  isNodeTemplateScriptLS n && jsTruthy n.startTagEnd &&
    decide (n.startTagEnd.getD 0 < offset) &&
    (!jsTruthy n.endTagStart || decide (offset < n.endTagStart.getD 0))

/-- `text.substring(a, b)` with JavaScript semantics (arguments swap
when `a > b`). -/
def jsSubstring (text : List Char) (a b : Nat) : List Char :=
  (text.drop (min a b)).take (max a b - min a b)

/-- The tree splice of `getHtmlNodeLSInternal`: set the inner node's
`parent` to the outer node, then push the inner node onto the outer
node's `children`. -/
def lsSplice (st : LSState) (currentNode sb : Nat) : LSState :=
  let heap1 := st.heap.set sb { heapGet st.heap sb with parent := some currentNode }
  let heap2 := heap1.set currentNode
    { heapGet heap1 currentNode with
      children := (heapGet heap1 currentNode).children ++ [sb] }
  { st with heap := heap2 }

/-- The synthetic document of the template recursion: same uri,
language and version as the original, text replaced by the tag body
left-padded with spaces up to `startTagEnd` so that absolute offsets
are preserved. -/
def synthDocOf (doc : LSDoc) (cn : LSNodeData) : LSDoc :=
  { uri := doc.uri
    languageId := doc.languageId
    version := doc.version
    text := List.replicate (cn.startTagEnd.getD 0) ' ' ++
      jsSubstring doc.text (cn.startTagEnd.getD 0) (cn.endTagStart.getD cn.nend) }

/-- `getHtmlNodeLSInternal` from util.ts: parse through the cached
parser (bypassing the cache inside template recursion), locate the node
at the offset, return nothing for a tag-less node; for a template
script with the offset strictly inside the body, recurse on the
synthetic document (`synthDocOf`, cache bypassed, same absolute
offset), splice a found inner node under the outer node and return it,
else return the outer node.  The recursion is fueled. -/
def getHtmlNodeLSInternal (O : LSOracles) :
    Nat → LSDoc → Nat → Bool → LSState → LSState × Option Nat
  | 0, _, _, _, st => (st, none)
  | fuel + 1, doc, offset, isInTemplateNode, st =>
    let useCache := !isInTemplateNode
    let pr := parseMarkupDocument O doc useCache st
    let currentNode := O.findNodeAt pr.1.heap pr.2 offset
    let cn := heapGet pr.1.heap currentNode
    if cn.tag.isNone then (pr.1, none)
    else if templateCondLS cn offset then
      let scriptBodyDocument := synthDocOf doc cn
      let r2 := getHtmlNodeLSInternal O fuel scriptBodyDocument offset true pr.1
      match r2.2 with
      | some sb => (lsSplice r2.1 currentNode sb, some sb)
      | none => (r2.1, some currentNode)
    else (pr.1, some currentNode)

/-- Splitting flat text into lines at newline characters. -/
def splitLines : List Char → List Line
  | [] => [[]]
  | c :: cs =>
    let r := splitLines cs
    if c = '\n' then [] :: r
    else
      match r with
      | [] => [[c]]
      | l :: ls => (c :: l) :: ls

/-- The language-service document's position-to-offset conversion. -/
def lsOffsetAt (text : List Char) (p : Pos) : Nat :=
  offsetAtAux (splitLines text) p.line p.character

/-- The boundary adjustment at the top of `getHtmlNodeLS`: with
`includeNodeBoundary`, nudge the offset right of a `<` or left of a
`>`. -/
def lsSelectionStartOffset (doc : LSDoc) (position : Pos)
    (includeNodeBoundary : Bool) : Nat :=
  let offset := lsOffsetAt doc.text position
  if includeNodeBoundary && doc.text.get? offset == some '<' then offset + 1
  else if includeNodeBoundary && doc.text.get? offset == some '>' then offset - 1
  else offset

/-- `getHtmlNodeLS` from util.ts: boundary adjustment, then the internal
resolution outside template recursion. -/
def getHtmlNodeLS (O : LSOracles) (fuel : Nat) (doc : LSDoc) (position : Pos)
    (includeNodeBoundary : Bool) (st : LSState) : LSState × Option Nat :=
  getHtmlNodeLSInternal O fuel doc
    (lsSelectionStartOffset doc position includeNodeBoundary) false st

theorem heapGet_set_eq (l : List LSNodeData) (i : Nat) (x : LSNodeData) (h : i < l.length) :
    heapGet (l.set i x) i = x := by
  unfold heapGet
  rw [List.getD_eq_get?, List.get?_set_eq_of_lt x h]
  rfl

theorem heapGet_set_ne (l : List LSNodeData) (i j : Nat) (x : LSNodeData) (h : i ≠ j) :
    heapGet (l.set i x) j = heapGet l j := by
  unfold heapGet
  rw [List.getD_eq_get?, List.getD_eq_get?, List.get?_set_ne _ _ h]

theorem lsSplice_cache (st : LSState) (cn sb : Nat) :
    (lsSplice st cn sb).cache = st.cache := rfl

theorem lsSplice_parent (st : LSState) (cn sb : Nat) (hne : sb ≠ cn)
    (hsb : sb < st.heap.length) :
    heapGet (lsSplice st cn sb).heap sb =
      { heapGet st.heap sb with parent := some cn } := by
  unfold lsSplice
  dsimp only
  rw [heapGet_set_ne _ _ _ _ (Ne.symm hne), heapGet_set_eq _ _ _ hsb]

theorem lsSplice_children (st : LSState) (cn sb : Nat) (hne : sb ≠ cn)
    (hcn : cn < st.heap.length) :
    heapGet (lsSplice st cn sb).heap cn =
      { heapGet st.heap cn with
        children := (heapGet st.heap cn).children ++ [sb] } := by
  unfold lsSplice
  dsimp only
  rw [heapGet_set_eq _ _ _ (by rw [List.length_set]; exact hcn)]
  rw [heapGet_set_ne _ _ _ _ hne]

theorem lsSplice_frame (st : LSState) (cn sb j : Nat) (hjs : j ≠ sb) (hjc : j ≠ cn) :
    (lsSplice st cn sb).heap.get? j = st.heap.get? j := by
  unfold lsSplice
  dsimp only
  rw [List.get?_set_ne _ _ (Ne.symm hjc), List.get?_set_ne _ _ (Ne.symm hjs)]

/-- The recursive call of the template branch (abbreviation). -/
def lsTemplateRec (O : LSOracles) (fuel : Nat) (doc : LSDoc) (offset : Nat)
    (st1 : LSState) (cnId : Nat) : LSState × Option Nat :=
  getHtmlNodeLSInternal O fuel (synthDocOf doc (heapGet st1.heap cnId)) offset true st1

/-- One unfolding of the template branch of `getHtmlNodeLSInternal`. -/
theorem getHtmlNodeLSInternal_step (O : LSOracles) (fuel : Nat) (doc : LSDoc)
    (offset : Nat) (itn : Bool) (st st1 : LSState) (rootId cnId : Nat)
    (hparse : parseMarkupDocument O doc (!itn) st = (st1, rootId))
    (hfind : O.findNodeAt st1.heap rootId offset = cnId)
    (htag : (heapGet st1.heap cnId).tag.isNone = false)
    (hcond : templateCondLS (heapGet st1.heap cnId) offset = true) :
    getHtmlNodeLSInternal O (fuel + 1) doc offset itn st =
      (match (lsTemplateRec O fuel doc offset st1 cnId).2 with
        | some sb => (lsSplice (lsTemplateRec O fuel doc offset st1 cnId).1 cnId sb, some sb)
        | none => ((lsTemplateRec O fuel doc offset st1 cnId).1, some cnId)) := by
  unfold getHtmlNodeLSInternal lsTemplateRec
  dsimp only
  rw [hparse]
  dsimp only
  rw [hfind]
  simp only [htag, Bool.false_eq_true, if_false]
  rw [if_pos hcond]

/-- Template-mode resolution never reads or writes the cache. -/
theorem getHtmlNodeLSInternal_template_cache (O : LSOracles) :
    ∀ (fuel : Nat) (doc : LSDoc) (offset : Nat) (st : LSState),
      ((getHtmlNodeLSInternal O fuel doc offset true st).1).cache = st.cache := by
  intro fuel
  induction fuel with
  | zero =>
    intro doc offset st
    rfl
  | succ fuel ih =>
    intro doc offset st
    unfold getHtmlNodeLSInternal
    dsimp only
    have hpm : ((parseMarkupDocument O doc (!true) st).1).cache = st.cache := rfl
    split_ifs with h1 h2
    · exact hpm
    · split
      · show (lsSplice _ _ _).cache = st.cache
        rw [lsSplice_cache, ih]
        exact hpm
      · show ((getHtmlNodeLSInternal O fuel _ offset true _).1).cache = st.cache
        rw [ih]
        exact hpm
    · exact hpm

theorem get?_replicate_of_lt : ∀ (n i : Nat) (a : Char), i < n →
    (List.replicate n a).get? i = some a
  | 0, _, _, h => absurd h (by omega)
  | _ + 1, 0, _, _ => rfl
  | n + 1, i + 1, a, h => get?_replicate_of_lt n i a (by omega)

/-- Offset preservation of the synthetic document: below `startTagEnd`
the text is space padding, and on the body range it agrees with the
original document at the same absolute offsets. -/
theorem synthDocOf_text (doc : LSDoc) (cn : LSNodeData)
    (h : cn.startTagEnd.getD 0 ≤ cn.endTagStart.getD cn.nend) :
    (∀ i, i < cn.startTagEnd.getD 0 → (synthDocOf doc cn).text.get? i = some ' ') ∧
    (∀ i, cn.startTagEnd.getD 0 ≤ i → i < cn.endTagStart.getD cn.nend →
      (synthDocOf doc cn).text.get? i = doc.text.get? i) := by
  constructor
  · intro i hi
    unfold synthDocOf
    dsimp only
    rw [List.get?_append (by rw [List.length_replicate]; exact hi)]
    exact get?_replicate_of_lt _ _ _ hi
  · intro i h1 h2
    unfold synthDocOf jsSubstring
    dsimp only
    rw [min_eq_left h, max_eq_right h]
    rw [List.get?_append_right (by rw [List.length_replicate]; exact h1)]
    rw [List.length_replicate]
    rw [List.get?_take (by omega)]
    rw [List.get?_drop]
    congr 1
    omega

/-- C10: when the node located by the incremental resolution at the
(boundary-adjusted) offset has no tag — top-level text or a comment —
`getHtmlNodeLS` returns nothing rather than that node or any enclosing
node, leaving the state as produced by the cached parse. -/
theorem getHtmlNodeLS_none_on_tagless (O : LSOracles) (fuel : Nat) (doc : LSDoc)
    (position : Pos) (inc : Bool) (st : LSState)
    (h : (heapGet ((parseMarkupDocument O doc true st).1).heap
        (O.findNodeAt ((parseMarkupDocument O doc true st).1).heap
          (parseMarkupDocument O doc true st).2
          (lsSelectionStartOffset doc position inc))).tag = none) :
    getHtmlNodeLS O (fuel + 1) doc position inc st =
      ((parseMarkupDocument O doc true st).1, none) := by
  unfold getHtmlNodeLS getHtmlNodeLSInternal
  dsimp only
  simp only [Bool.not_false]
  rw [h]
  simp

/-- C9: in Variant B, when the located node is a template script with
the position strictly inside its body, the recursion runs on a
synthetic document — same uri and version, text equal to the inner body
left-padded with spaces up to the start-tag-end offset, so the same
absolute offset needs no translation — with the cache bypassed for the
whole recursive call; a found inner node gets its parent set to the
outer node and is pushed onto the outer node's children before being
returned, and otherwise the outer node is returned. -/
theorem getHtmlNodeLSInternal_template_recursion (O : LSOracles) (fuel : Nat)
    (doc : LSDoc) (offset : Nat) (itn : Bool) (st st1 : LSState) (rootId cnId : Nat)
    (hparse : parseMarkupDocument O doc (!itn) st = (st1, rootId))
    (hfind : O.findNodeAt st1.heap rootId offset = cnId)
    (htag : (heapGet st1.heap cnId).tag.isNone = false)
    (hcond : templateCondLS (heapGet st1.heap cnId) offset = true) :
    ((heapGet st1.heap cnId).startTagEnd.getD 0 ≤
        (heapGet st1.heap cnId).endTagStart.getD (heapGet st1.heap cnId).nend →
      (∀ i, i < (heapGet st1.heap cnId).startTagEnd.getD 0 →
        (synthDocOf doc (heapGet st1.heap cnId)).text.get? i = some ' ') ∧
      (∀ i, (heapGet st1.heap cnId).startTagEnd.getD 0 ≤ i →
        i < (heapGet st1.heap cnId).endTagStart.getD (heapGet st1.heap cnId).nend →
        (synthDocOf doc (heapGet st1.heap cnId)).text.get? i = doc.text.get? i)) ∧
    (synthDocOf doc (heapGet st1.heap cnId)).uri = doc.uri ∧
    (synthDocOf doc (heapGet st1.heap cnId)).version = doc.version ∧
    (lsTemplateRec O fuel doc offset st1 cnId).1.cache = st1.cache ∧
    (∀ sb, (lsTemplateRec O fuel doc offset st1 cnId).2 = some sb →
      getHtmlNodeLSInternal O (fuel + 1) doc offset itn st =
        (lsSplice (lsTemplateRec O fuel doc offset st1 cnId).1 cnId sb, some sb)) ∧
    (∀ sb, (lsTemplateRec O fuel doc offset st1 cnId).2 = some sb → sb ≠ cnId →
      sb < (lsTemplateRec O fuel doc offset st1 cnId).1.heap.length →
      (heapGet (getHtmlNodeLSInternal O (fuel + 1) doc offset itn st).1.heap sb).parent
        = some cnId) ∧
    (∀ sb, (lsTemplateRec O fuel doc offset st1 cnId).2 = some sb → sb ≠ cnId →
      cnId < (lsTemplateRec O fuel doc offset st1 cnId).1.heap.length →
      (heapGet (getHtmlNodeLSInternal O (fuel + 1) doc offset itn st).1.heap cnId).children
        = (heapGet (lsTemplateRec O fuel doc offset st1 cnId).1.heap cnId).children
            ++ [sb]) ∧
    ((lsTemplateRec O fuel doc offset st1 cnId).2 = none →
      getHtmlNodeLSInternal O (fuel + 1) doc offset itn st
        = ((lsTemplateRec O fuel doc offset st1 cnId).1, some cnId)) := by
  have hstep := getHtmlNodeLSInternal_step O fuel doc offset itn st st1 rootId cnId
    hparse hfind htag hcond
  refine ⟨synthDocOf_text doc _, rfl, rfl, ?_, ?_, ?_, ?_, ?_⟩
  · show ((getHtmlNodeLSInternal O fuel _ offset true st1).1).cache = st1.cache
    exact getHtmlNodeLSInternal_template_cache O fuel _ offset st1
  · intro sb hsb
    rw [hstep, hsb]
  · intro sb hsb hne hlt
    rw [hstep, hsb]
    dsimp only
    rw [lsSplice_parent _ _ _ hne hlt]
  · intro sb hsb hne hlt
    rw [hstep, hsb]
    dsimp only
    rw [lsSplice_children _ _ _ hne hlt]
  · intro hnone
    rw [hstep, hnone]

/-- C3 (amended): the tree splice of Variant B mutates exactly two
nodes — the freshly returned inner node, whose parent is set to the
outer node, and the located outer node, which gains the inner node as a
child — and leaves the cache entry itself untouched; the splice is what
the template branch performs on a found inner node.  (The outer node
may belong to the tree stored in the cache, which is therefore mutated
in place; see the counterexample.) -/
theorem lsSplice_mutation_frame :
    (∀ (st : LSState) (cn sb j : Nat), j ≠ sb → j ≠ cn →
      (lsSplice st cn sb).heap.get? j = st.heap.get? j) ∧
    (∀ (st : LSState) (cn sb : Nat), sb ≠ cn → sb < st.heap.length →
      heapGet (lsSplice st cn sb).heap sb =
        { heapGet st.heap sb with parent := some cn }) ∧
    (∀ (st : LSState) (cn sb : Nat), sb ≠ cn → cn < st.heap.length →
      heapGet (lsSplice st cn sb).heap cn =
        { heapGet st.heap cn with children := (heapGet st.heap cn).children ++ [sb] }) ∧
    (∀ (st : LSState) (cn sb : Nat), (lsSplice st cn sb).cache = st.cache) ∧
    (∀ (O : LSOracles) (fuel : Nat) (doc : LSDoc) (offset : Nat) (itn : Bool)
      (st st1 : LSState) (rootId cnId sb : Nat),
      parseMarkupDocument O doc (!itn) st = (st1, rootId) →
      O.findNodeAt st1.heap rootId offset = cnId →
      (heapGet st1.heap cnId).tag.isNone = false →
      templateCondLS (heapGet st1.heap cnId) offset = true →
      (lsTemplateRec O fuel doc offset st1 cnId).2 = some sb →
      getHtmlNodeLSInternal O (fuel + 1) doc offset itn st =
        (lsSplice (lsTemplateRec O fuel doc offset st1 cnId).1 cnId sb, some sb)) := by
  refine ⟨fun st cn sb j hjs hjc => lsSplice_frame st cn sb j hjs hjc,
    fun st cn sb hne hsb => lsSplice_parent st cn sb hne hsb,
    fun st cn sb hne hcn => lsSplice_children st cn sb hne hcn,
    fun st cn sb => lsSplice_cache st cn sb, ?_⟩
  intro O fuel doc offset itn st st1 rootId cnId sb hparse hfind htag hcond hsb
  rw [getHtmlNodeLSInternal_step O fuel doc offset itn st st1 rootId cnId
    hparse hfind htag hcond, hsb]

/-- The concrete Variant-B scenario used by the C3 counterexample and
the C9 witness: the document `script type="text/plain"` containing
`x<b></b>`, its parsed tree (root node 0 with the script node 1) stored
in the cache, and oracles whose synthetic-document parse allocates the
`b` node fresh. -/
def c3doc : LSDoc :=
  { uri := "file:///t.html"
    languageId := "html"
    version := 1
    text := "<script type=\"text/plain\">x<b></b></script>".toList }

def c3rootNode : LSNodeData :=
  { tag := none
    attributes := []
    start := 0
    nend := 43
    startTagEnd := none
    endTagStart := none
    children := [1]
    parent := none }

def c3scriptNode : LSNodeData :=
  { tag := some "script"
    attributes := [("type", "\"text/plain\"")]
    start := 0
    nend := 43
    startTagEnd := some 26
    endTagStart := some 34
    children := []
    parent := some 0 }

def c3bNode : LSNodeData :=
  { tag := some "b"
    attributes := []
    start := 27
    nend := 34
    startTagEnd := some 30
    endTagStart := some 30
    children := []
    parent := none }

def c3st : LSState :=
  { heap := [c3rootNode, c3scriptNode], cache := some (("file:///t.html", 1), 0) }

def c3O : LSOracles :=
  { parse := fun _ h => (h ++ [c3bNode], h.length)
    findNodeAt := fun _ root _ => if root = 0 then 1 else root }

/-- C3 counterexample: resolving offset 27 (inside the template body)
against the cached tree returns the fresh inner node 2, but the splice
mutates node 1 — the script node of the tree the cache still stores
(root 0, whose child list contains 1): its `children` list changes from
`[]` to `[2]`.  A node belonging to a cached tree IS mutated. -/
theorem lsSplice_mutates_cached_tree :
    ((getHtmlNodeLSInternal c3O 2 c3doc 27 false c3st).1).cache
        = some (("file:///t.html", 1), 0) ∧
    (heapGet c3st.heap 0).children = [1] ∧
    (heapGet c3st.heap 1).children = [] ∧
    (heapGet ((getHtmlNodeLSInternal c3O 2 c3doc 27 false c3st).1).heap 1).children
        = [2] ∧
    (getHtmlNodeLSInternal c3O 2 c3doc 27 false c3st).2 = some 2 := by
  decide

/-- Witness for C3: the splice frame and the splice-producing branch at
the concrete cached-tree scenario. -/
theorem lsSplice_mutation_frame_witness :
    (lsSplice c3st 0 1).heap.get? 5 = c3st.heap.get? 5 ∧
    heapGet (lsSplice c3st 0 1).heap 1 = { heapGet c3st.heap 1 with parent := some 0 } ∧
    getHtmlNodeLSInternal c3O 2 c3doc 27 false c3st =
      (lsSplice (lsTemplateRec c3O 1 c3doc 27 c3st 1).1 1 2, some 2) :=
  ⟨lsSplice_mutation_frame.1 c3st 0 1 5 (by decide) (by decide),
    lsSplice_mutation_frame.2.1 c3st 0 1 (by decide) (by decide),
    lsSplice_mutation_frame.2.2.2.2 c3O 1 c3doc 27 false c3st c3st 0 1 2
      (by decide) (by decide) (by decide) (by decide) (by decide)⟩

/-- Witness for C9 at the concrete scenario: padding and body
characters of the synthetic document, untouched cache, and the spliced
result with its parent pointer. -/
theorem getHtmlNodeLSInternal_template_recursion_witness :
    (synthDocOf c3doc (heapGet c3st.heap 1)).text.get? 5 = some ' ' ∧
    (synthDocOf c3doc (heapGet c3st.heap 1)).text.get? 27 = c3doc.text.get? 27 ∧
    (lsTemplateRec c3O 1 c3doc 27 c3st 1).1.cache = c3st.cache ∧
    getHtmlNodeLSInternal c3O 2 c3doc 27 false c3st =
      (lsSplice (lsTemplateRec c3O 1 c3doc 27 c3st 1).1 1 2, some 2) ∧
    (heapGet (getHtmlNodeLSInternal c3O 2 c3doc 27 false c3st).1.heap 2).parent
        = some 1 := by
  have h := getHtmlNodeLSInternal_template_recursion c3O 1 c3doc 27 false c3st c3st 0 1
    (by decide) (by decide) (by decide) (by decide)
  exact ⟨(h.1 (by decide)).1 5 (by decide), (h.1 (by decide)).2 27 (by decide) (by decide),
    h.2.2.2.1, h.2.2.2.2.1 2 (by decide),
    h.2.2.2.2.2.1 2 (by decide) (by decide) (by decide)⟩

/-- The concrete tag-less scenario for the C10 witness: the locator
returns a node with no tag (top-level text). -/
def c10heap : List LSNodeData :=
  [{ tag := none
     attributes := []
     start := 0
     nend := 5
     startTagEnd := none
     endTagStart := none
     children := []
     parent := none }]

def c10O : LSOracles :=
  { parse := fun _ _ => (c10heap, 0)
    findNodeAt := fun _ root _ => root }

def c10doc : LSDoc :=
  { uri := "file:///a.html", languageId := "html", version := 1, text := "hello".toList }

def c10st : LSState := { heap := [], cache := none }

/-- Witness for C10: a document whose located node is tag-less text;
the resolution returns nothing. -/
theorem getHtmlNodeLS_none_on_tagless_witness :
    getHtmlNodeLS c10O 3 c10doc ⟨0, 2⟩ false c10st =
      ((parseMarkupDocument c10O c10doc true c10st).1, none) :=
  getHtmlNodeLS_none_on_tagless c10O 2 c10doc ⟨0, 2⟩ false c10st (by decide)
